import Mathlib

/-!
Verification of the KnowHowPages static site generator (`generate.py`).

Paths are modelled as lists of components (`List String`), mirroring
`pathlib.PurePath.parts`.  Pure-python functions are translated to Lean
functions; fallible operations (such as `Path.relative_to`, which raises
`ValueError`) return `Option`.
-/

namespace KnowHowPages

/-- Index of the last occurrence of a dot in a character list, mirroring
Python's `str.rfind('.')` (with `none` for "not found"). -/
def last_dot_idx : List Char → Option Nat
  | [] => none
  | c :: rest =>
    match last_dot_idx rest with
    | some i => some (i + 1)
    | none => if c == '.' then some 0 else none

/-- Models CPython's `PurePath.suffix` on a single file name: the extension
from the last dot, unless the dot is the leading character or the final
character (`if 0 < i < len(name) - 1: return name[i:] else ''`). -/
def pySuffix (name : String) : String :=
  match last_dot_idx name.data with
  | some i => if 0 < i ∧ i + 1 < name.length then String.mk (name.data.drop i) else ""
  | none => ""

/-- Models CPython's `PurePath.stem` on a single file name: the name with the
suffix removed (`name[:i]` when `0 < i < len(name) - 1`, else the whole name). -/
def pyStem (name : String) : String :=
  match last_dot_idx name.data with
  | some i => if 0 < i ∧ i + 1 < name.length then String.mk (name.data.take i) else name
  | none => name

/-- Models `PurePath.with_suffix` applied to the final name component:
if the old suffix is empty the new suffix is appended, otherwise the old
suffix is cut off (`name[:-len(old_suffix)]`) and the new one appended. -/
def swap_suffix (name suf : String) : String :=
  let old := pySuffix name
  if old == "" then name ++ suf
  else String.mk (name.data.take (name.length - old.length)) ++ suf

/-- Models `PurePath.with_suffix` on a component-list path: replaces the
suffix of the last component.  Python raises on a path without a name;
that never happens at the call sites, and is modelled by returning `[]`. -/
def with_suffix (p : List String) (suf : String) : List String :=
  match p.getLast? with
  | none => []
  | some nm => p.dropLast ++ [swap_suffix nm suf]

/-- Models `PurePath.relative_to`: strips `base` off the front of `p`;
Python raises `ValueError` when `p` is not below `base`, modelled by `none`. -/
def relative_to (p base : List String) : Option (List String) :=
  if base.isPrefixOf p then some (p.drop base.length) else none

/-- Models `PurePath.is_relative_to`: `base`'s components are a leading
segment of `p`'s components. -/
def is_relative_to (p base : List String) : Bool := base.isPrefixOf p

/-- Models `PurePath.as_posix` on a relative component list: the components
joined by forward slashes. -/
def as_posix : List String → String
  | [] => ""
  | [s] => s
  | s :: rest => s ++ "/" ++ as_posix rest

/-- Models `str.join`: `sep.join(parts)` (used by the script as
`"\n".join(parts)`). -/
def str_join (sep : String) : List String → String
  | [] => ""
  | [s] => s
  | s :: rest => s ++ sep ++ str_join sep rest

/-!  The filesystem model: an entry is a file or a directory with an ordered
list of entries (the order models the OS scandir order of `Path.iterdir`). -/

/-- A filesystem entry: a plain file, or a directory with its entries listed
in OS scandir order. -/
inductive FSEntry where
  | file (name : String)
  | dir (name : String) (entries : List FSEntry)

/-- Name of a filesystem entry (`Path.name`). -/
def FSEntry.entryName : FSEntry → String
  | .file n => n
  | .dir n _ => n

/-- Discriminates files from directories (`Path.is_file()` for directory
entries). -/
def FSEntry.isFileEntry : FSEntry → Bool
  | .file _ => true
  | .dir _ _ => false

/-- Models Python's `str.lower()` (ASCII case mapping; Python's Unicode
lowering agrees with this on ASCII file names). -/
def py_lower (s : String) : String := String.mk (s.data.map Char.toLower)

/-- Python's string comparison: lexicographic on code points. -/
def chars_le : List Char → List Char → Bool
  | [], _ => true
  | _ :: _, [] => false
  | a :: as, b :: bs =>
    if a.toNat < b.toNat then true
    else if b.toNat < a.toNat then false
    else chars_le as bs

/-- Python's `s <= t` on strings. -/
def str_le (a b : String) : Bool := chars_le a.data b.data

/-- The comparison key used by `build_tree`'s sort:
`key=lambda p: (p.is_file(), p.name.lower())`, compared with Python's
lexicographic tuple order (`False < True`, strings by code points). -/
def entry_le (a b : FSEntry) : Bool :=
  (!a.isFileEntry && b.isFileEntry) ||
    (a.isFileEntry == b.isFileEntry && str_le (py_lower a.entryName) (py_lower b.entryName))

/-- Stable insertion used to model Python's (stable) `sorted`: the new
element goes in front of the first element that is not `le`-smaller, so
elements with equal keys keep their original relative order. -/
def insert_le (le : α → α → Bool) (x : α) : List α → List α
  | [] => [x]
  | y :: ys => if le x y then x :: y :: ys else y :: insert_le le x ys

/-- Models Python's built-in `sorted` (a stable sort) for a total preorder
`le`: for such an order the stable sorted sequence is unique, so any stable
sorting algorithm computes it. -/
def py_sorted (le : α → α → Bool) : List α → List α
  | [] => []
  | x :: xs => insert_le le x (py_sorted le xs)

theorem sizeOf_insert_le [SizeOf α] (le : α → α → Bool) (x : α) (l : List α) :
    sizeOf (insert_le le x l) = 1 + sizeOf x + sizeOf l := by
  induction l with
  | nil => simp [insert_le]
  | cons y ys ih =>
    simp only [insert_le]
    by_cases h : le x y = true
    · simp [h]
    · simp [h, ih]; omega

theorem sizeOf_py_sorted [SizeOf α] (le : α → α → Bool) (l : List α) :
    sizeOf (py_sorted le l) = sizeOf l := by
  induction l with
  | nil => rfl
  | cons x xs ih => simp [py_sorted, sizeOf_insert_le, ih]

/-!  The navigation tree (`class Node`). -/

/-- A node of the navigation tree: directory or markdown document, with its
display name, absolute path, and (for directories) ordered children. -/
inductive Node where
  | mk (name : String) (path : List String) (is_dir : Bool) (children : List Node)

/-- Display name of a node. -/
def Node.name : Node → String
  | .mk n _ _ _ => n

/-- Absolute source path of a node. -/
def Node.path : Node → List String
  | .mk _ p _ _ => p

/-- Directory discriminator of a node. -/
def Node.is_dir : Node → Bool
  | .mk _ _ b _ => b

/-- Children of a node (meaningful for directories only). -/
def Node.children : Node → List Node
  | .mk _ _ _ cs => cs

mutual

/-- Models `build_tree(root)`: builds the node for the directory at `path`
whose scandir entries are `entries`.  The node's name is the directory's
last path component (`root.name`); children come from the entries sorted by
`(is_file, name.lower())`, keeping subdirectories (recursed into) and
files whose `suffix.lower()` is `".md"`. -/
def build_tree (path : List String) (entries : List FSEntry) : Node :=
  Node.mk (path.getLastD "") path true (build_children path (py_sorted entry_le entries))
termination_by sizeOf entries + 1
decreasing_by simp [sizeOf_py_sorted]

/-- The loop body of `build_tree`: turns each sorted entry into a child
node (directories recursively, `.md` files as leaves, everything else
skipped). -/
def build_children (path : List String) : List FSEntry → List Node
  | [] => []
  | .dir cn ce :: rest => build_tree (path ++ [cn]) ce :: build_children path rest
  | .file fn :: rest =>
    if py_lower (pySuffix fn) == ".md"
    then Node.mk (pyStem fn) (path ++ [fn]) false [] :: build_children path rest
    else build_children path rest
termination_by l => sizeOf l
decreasing_by all_goals (simp; try omega)

end

/-!  The navigation renderer (`render_nav`). -/

/-- The inline indentation attribute of `render_nav`:
`indent_px = depth * 16`, and
`style_attr = f" style=\"margin-left:{indent_px}px\"" if depth else ""`. -/
def style_attr (depth : Nat) : String :=
  if depth ≠ 0 then " style=\"margin-left:" ++ toString (depth * 16) ++ "px\"" else ""

/-- The disclosure attribute of a directory entry:
`" open" if current_md and current_md.is_relative_to(node.path) else ""`. -/
def open_attr (current_md : Option (List String)) (path : List String) : String :=
  match current_md with
  | some c => if is_relative_to c path then " open" else ""
  | none => ""

/-- The active-link attribute of a document entry:
`" class=\"active\"" if current_md and rel_md_path == current_md.relative_to(root) else ""`.
Evaluating `current_md.relative_to(root)` can raise (modelled by `none`). -/
def class_attr_of (current_md : Option (List String)) (rel_md_path : List String)
    (root : List String) : Option String :=
  match current_md with
  | none => some ""
  | some c =>
    (relative_to c root).map (fun rc => if rel_md_path == rc then " class=\"active\"" else "")

mutual

/-- Models `render_nav(node, current_md, root, depth)`: the HTML navigation
fragment for one node.  A directory emits
`<details{open}{style}><summary title="name">name</summary>`, its children
rendered at `depth + 1`, and `</details>`, joined by newlines; a document
emits an `<a>` whose href is the node's path relative to `root` with the
suffix swapped to `.html`, in POSIX form.  `none` models the `ValueError`
raised by `Path.relative_to` on a path outside `root`. -/
def render_nav (node : Node) (current_md : Option (List String)) (root : List String)
    (depth : Nat) : Option String :=
  match node with
  | .mk nm p true cs =>
    match render_children cs current_md root (depth + 1) with
    | none => none
    | some rendered =>
      some (str_join "\n"
        (("<details" ++ open_attr current_md p ++ style_attr depth ++
            "><summary title=\"" ++ nm ++ "\">" ++ nm ++ "</summary>")
          :: rendered ++ ["</details>"]))
  | .mk nm p false _ =>
    match relative_to p root with
    | none => none
    | some rel =>
      match class_attr_of current_md rel root with
      | none => none
      | some cls =>
        some ("<a href=\"" ++ as_posix (with_suffix rel ".html") ++ "\"" ++ cls ++
          style_attr depth ++ " title=\"" ++ nm ++ "\">" ++ nm ++ "</a>")
termination_by sizeOf node

/-- The child loop of `render_nav`: renders each child in order
(`for child in node.children: parts.append(render_nav(child, ...))`). -/
def render_children (cs : List Node) (current_md : Option (List String)) (root : List String)
    (depth : Nat) : Option (List String) :=
  match cs with
  | [] => some []
  | c :: rest =>
    match render_nav c current_md root depth, render_children rest current_md root depth with
    | some s, some ss => some (s :: ss)
    | _, _ => none
termination_by sizeOf cs

end

mutual

/-- Source paths of the document leaves of a tree, in rendering order. -/
def doc_paths (n : Node) : List (List String) :=
  match n with
  | .mk _ p false _ => [p]
  | .mk _ _ true cs => doc_paths_list cs
termination_by sizeOf n

/-- Source paths of the document leaves below a list of nodes. -/
def doc_paths_list (cs : List Node) : List (List String) :=
  match cs with
  | [] => []
  | c :: rest => doc_paths c ++ doc_paths_list rest
termination_by sizeOf cs

end

mutual

/-- Observation of the disclosure state `render_nav` gives each directory
node: pairs of the directory's source path and the truth of the code's
open test (`current_md and current_md.is_relative_to(node.path)`),
in rendering order. -/
def dir_open_flags (n : Node) (current_md : Option (List String)) :
    List (List String × Bool) :=
  match n with
  | .mk _ _ false _ => []
  | .mk _ p true cs =>
    (p, match current_md with
        | some c => is_relative_to c p
        | none => false) :: dir_open_flags_list cs current_md
termination_by sizeOf n

/-- Disclosure states of the directories below a list of nodes. -/
def dir_open_flags_list (cs : List Node) (current_md : Option (List String)) :
    List (List String × Bool) :=
  match cs with
  | [] => []
  | c :: rest => dir_open_flags c current_md ++ dir_open_flags_list rest current_md
termination_by sizeOf cs

end

/-- The rendered active-link test of a document node, as computed by
`render_nav`: both the node's path and the current document's path taken
relative to the tree root, compared for equality (`false` when either
`relative_to` would raise). -/
def is_active_doc (p current root : List String) : Bool :=
  match relative_to p root, relative_to current root with
  | some rel, some rc => rel == rc
  | _, _ => false

/-- Source paths of the document leaves whose rendered link carries the
active marker. -/
def active_docs (n : Node) (current root : List String) : List (List String) :=
  (doc_paths n).filter (fun p => is_active_doc p current root)

/-- Generic structural induction for `Node` (the nested `List Node` field
makes the auto-generated recursor awkward to use directly). -/
theorem Node.ind (P : Node → Prop)
    (h : ∀ nm p b cs, (∀ c ∈ cs, P c) → P (Node.mk nm p b cs)) : ∀ n, P n := by
  have key : ∀ k (n : Node), sizeOf n ≤ k → P n := by
    intro k
    induction k with
    | zero =>
      intro n hn
      cases n with
      | mk nm p b cs => simp at hn
    | succ k ih =>
      intro n hn
      cases n with
      | mk nm p b cs =>
        apply h
        intro c hc
        apply ih
        have h1 := List.sizeOf_lt_of_mem hc
        have h2 : sizeOf (Node.mk nm p b cs) = 1 + sizeOf nm + sizeOf p + sizeOf b + sizeOf cs := by
          simp
        omega
  intro n
  exact key (sizeOf n) n (Nat.le_refl _)

/-!  Models of `generate_site`'s path scanning and writing. -/

/-- POSIX `fnmatch` of a name against the glob `*.md`: the name literally
ends in `.md` (case-sensitive, unlike `build_tree`'s `suffix.lower()`
test). -/
def glob_md_name (nm : String) : Bool := ".md".data.isSuffixOf nm.data

mutual

/-- Models `input_dir.rglob("*.md")` restricted to files: relative paths of
the matches, in pathlib's order (matches in the current directory in
scandir order, then each subdirectory recursively, depth-first).  The model
assumes no directory's own name matches `*.md` (a directory named `x.md`
would make the real generation loop crash on `read_text`). -/
def rglob_md (entries : List FSEntry) : List (List String) :=
  (entries.filterMap fun e =>
    match e with
    | .file nm => if glob_md_name nm then some [nm] else none
    | .dir _ _ => none) ++ rglob_md_dirs entries
termination_by sizeOf entries + 1

/-- Recursion of `rglob_md` into subdirectories, in scandir order. -/
def rglob_md_dirs (entries : List FSEntry) : List (List String) :=
  match entries with
  | [] => []
  | .file _ :: rest => rglob_md_dirs rest
  | .dir cn ce :: rest => (rglob_md ce).map (cn :: ·) ++ rglob_md_dirs rest
termination_by sizeOf entries

end

mutual

/-- Models `input_dir.rglob("*")` filtered to `asset.is_file()`: relative
paths of every file under the input directory. -/
def r_files (entries : List FSEntry) : List (List String) :=
  (entries.filterMap fun e =>
    match e with
    | .file nm => some [nm]
    | .dir _ _ => none) ++ r_files_dirs entries
termination_by sizeOf entries + 1

/-- Recursion of `r_files` into subdirectories. -/
def r_files_dirs (entries : List FSEntry) : List (List String) :=
  match entries with
  | [] => []
  | .file _ :: rest => r_files_dirs rest
  | .dir cn ce :: rest => (r_files ce).map (cn :: ·) ++ r_files_dirs rest
termination_by sizeOf entries

end

/-- Relative output paths of the HTML pages `generate_site` writes: one per
`rglob("*.md")` hit, at the mirrored location with the suffix swapped to
`.html` (`output_dir / rel_md.with_suffix(".html")`). -/
def generated_pages (entries : List FSEntry) : List (List String) :=
  (rglob_md entries).map (fun p => with_suffix p ".html")

/-- Relative output paths of the files copied verbatim by the asset loop:
every file whose `suffix.lower()` is not `".md"`. -/
def copied_assets (entries : List FSEntry) : List (List String) :=
  (r_files entries).filter (fun p => !(py_lower (pySuffix (p.getLastD "")) == ".md"))

/-- Models the per-page base href: `depth = len(rel_md.parts) - 1;`
`base_href = "../" * depth if depth > 0 else "./"`. -/
def repeat_str (s : String) : Nat → String
  | 0 => ""
  | n + 1 => s ++ repeat_str s n

/-- The base href `generate_site` computes for a page at relative source
path `rel_md`. -/
def base_href_of (rel_md : List String) : String :=
  let depth := rel_md.length - 1
  if depth > 0 then repeat_str "../" depth else "./"

/-- Models the final redirect step: `next(input_dir.rglob("*.md"), None)`;
when a first document exists, the written `index.html` content, else
`none` (no index page is written). -/
def index_redirect (entries : List FSEntry) : Option String :=
  match rglob_md entries with
  | [] => none
  | p :: _ =>
    some ("<meta http-equiv=\"refresh\" content=\"0; url=" ++
      as_posix (with_suffix p ".html") ++ "\">")

/-!  Model of the copy-button injection in `md_to_html`:
`re.sub(r"<pre><code[\s\S]*?</code></pre>", _inject, html)`.  The regex
matches are found leftmost-first and non-overlapping; the lazy `[\s\S]*?`
makes each match end at the earliest `</code></pre>` after its
`<pre><code`. -/

/-- The injected control:
`<button class="copy-btn" onclick="copyCode(this)">Copy</button>`. -/
def COPY_BTN : String := "<button class=\"copy-btn\" onclick=\"copyCode(this)\">Copy</button>"

/-- Opening literal of the code-block pattern (10 characters). -/
def OPEN_TAG : List Char := "<pre><code".data

/-- Closing literal of the code-block pattern (13 characters). -/
def CLOSE_TAG : List Char := "</code></pre>".data

/-- Index of the first occurrence of `pat` in `s` (`none` if absent). -/
def findSub (pat : List Char) : List Char → Option Nat
  | [] => if pat.isEmpty then some 0 else none
  | c :: rest =>
    if pat.isPrefixOf (c :: rest) then some 0
    else (findSub pat rest).map (· + 1)

theorem findSub_spec (pat : List Char) : ∀ (s : List Char) (i : Nat),
    findSub pat s = some i → pat.isPrefixOf (s.drop i) = true ∧ i ≤ s.length := by
  intro s
  induction s with
  | nil =>
    intro i h
    simp only [findSub] at h
    by_cases hp : pat.isEmpty
    · simp [hp] at h
      rcases hp with _
      cases h
      refine ⟨?_, Nat.le_refl _⟩
      cases pat with
      | nil => simp
      | cons a l => simp [List.isEmpty] at hp
    · simp [hp] at h
  | cons c rest ih =>
    intro i h
    simp only [findSub] at h
    by_cases hp : pat.isPrefixOf (c :: rest) = true
    · simp [hp] at h
      cases h
      exact ⟨hp, Nat.zero_le _⟩
    · simp [hp] at h
      rcases h with ⟨j, hj, rfl⟩
      rcases ih j hj with ⟨h1, h2⟩
      refine ⟨by simpa using h1, by simpa using Nat.succ_le_succ h2⟩

/-- Locates the leftmost regex match `<pre><code[\s\S]*?</code></pre>` and
splits `s` into the text before the match, the match itself, and the rest.
A `<pre><code` with no later `</code></pre>` can never start a match, and
then no later occurrence can either, so the scan stops. -/
def find_code_block (s : List Char) : Option (List Char × List Char × List Char) :=
  match findSub OPEN_TAG s with
  | none => none
  | some i =>
    match findSub CLOSE_TAG ((s.drop i).drop 10) with
    | none => none
    | some j =>
      some (s.take i, (s.drop i).take (10 + j + 13), (s.drop i).drop (10 + j + 13))

theorem find_code_block_shrink {s b m r : List Char}
    (h : find_code_block s = some (b, m, r)) : r.length < s.length := by
  unfold find_code_block at h
  cases hi : findSub OPEN_TAG s with
  | none => simp [hi] at h
  | some i =>
    have hopen := (findSub_spec _ _ _ hi).1
    have hlen : 10 ≤ (s.drop i).length := by
      have h1 := List.IsPrefix.length_le (List.isPrefixOf_iff_prefix.mp hopen)
      simpa [OPEN_TAG] using h1
    have his : i ≤ s.length := (findSub_spec _ _ _ hi).2
    simp only [hi] at h
    cases hj : findSub CLOSE_TAG ((s.drop i).drop 10) with
    | none => rw [hj] at h; simp at h
    | some j =>
      rw [hj] at h
      simp only [Option.some.injEq, Prod.mk.injEq] at h
      obtain ⟨h1, h2, hr⟩ := h
      subst hr
      simp only [List.length_drop]
      have hdi : (s.drop i).length = s.length - i := by simp
      omega

/-- Models the `re.sub` call of `md_to_html`: inserts the copy button
immediately before every (leftmost, non-overlapping) code-block match. -/
def inject_copy (s : List Char) : List Char :=
  match h : find_code_block s with
  | none => s
  | some (b, m, r) => b ++ COPY_BTN.data ++ m ++ inject_copy r
termination_by s.length
decreasing_by exact find_code_block_shrink h

/-- Number of code-block matches of the regex in `s` (the `k` of the
copy-button coverage property). -/
def count_code_blocks (s : List Char) : Nat :=
  match h : find_code_block s with
  | none => 0
  | some (_, _, r) => 1 + count_code_blocks r
termination_by s.length
decreasing_by exact find_code_block_shrink h

/-- Decomposition of `s` into (text-before, match) pairs plus the trailing
text after the last match. -/
def code_block_split (s : List Char) : List (List Char × List Char) × List Char :=
  match h : find_code_block s with
  | none => ([], s)
  | some (b, m, r) =>
    let res := code_block_split r
    ((b, m) :: res.1, res.2)
termination_by s.length
decreasing_by exact find_code_block_shrink h

/-- The copy-button post-processing step of `md_to_html`, on strings. -/
def md_inject_copy_buttons (html : String) : String := String.mk (inject_copy html.data)

/-!  Model of `extract_title`:
`re.search(r"<h[1-3][^>]*>(.*?)</h[1-3]>", html)`, group 1.  Note that with
no `re.DOTALL`, `.` does not match a newline, while `[^>]` does. -/

/-- Digit class `[1-3]` of the heading pattern. -/
def is_h_digit (c : Char) : Bool := c == '1' || c == '2' || c == '3'

/-- Splits at the first occurrence of `ch`: `some (before, after)` with
`before` free of `ch`, or `none` when `ch` is absent.  This is how
`[^>]*>` consumes up to the first `>`. -/
def split_first (ch : Char) : List Char → Option (List Char × List Char)
  | [] => none
  | c :: rest =>
    if c == ch then some ([], rest)
    else (split_first ch rest).map (fun q => (c :: q.1, q.2))

/-- Whether `s` starts with a closing tag `</h[1-3]>`. -/
def close_tag_at (s : List Char) : Bool :=
  match s with
  | '<' :: '/' :: 'h' :: d :: '>' :: _ => is_h_digit d
  | _ => false

/-- The lazy group `(.*?)</h[1-3]>`: the shortest newline-free prefix of
`s` that is followed by a closing heading tag. -/
def find_inner (s : List Char) : Option (List Char) :=
  if close_tag_at s then some []
  else
    match s with
    | [] => none
    | c :: rest => if c == '\n' then none else (find_inner rest).map (c :: ·)

/-- Attempts the heading regex anchored at the start of `s`, returning
group 1 on success. -/
def try_heading_at (s : List Char) : Option (List Char) :=
  match s with
  | '<' :: 'h' :: d :: rest =>
    if is_h_digit d then
      match split_first '>' rest with
      | none => none
      | some q => find_inner q.2
    else none
  | _ => none

/-- The leftmost-match search of `re.search`: tries the pattern at every
start position, left to right. -/
def scan_title : List Char → Option (List Char)
  | [] => none
  | s@(_ :: rest) =>
    match try_heading_at s with
    | some g => some g
    | none => scan_title rest

/-- Models `extract_title(html)`: group 1 of the first heading match, or
`none` (Python `None`). -/
def extract_title (html : String) : Option String := (scan_title html.data).map String.mk

/-- Models `title = extract_title(body_html) or md_path.stem`: Python's
`or` falls through both on `None` and on an empty (falsy) string. -/
def page_title (body stem : String) : String :=
  match extract_title body with
  | none => stem
  | some t => if t == "" then stem else t

/-!  The page template.  `TEMPLATE.format(title=…, nav=…, body=…,
base_href=…)` splices the four values verbatim into the fixed skeleton;
the segments below are the literal text of `TEMPLATE` between the slots
(`\x7b`/`\x7d` escape the braces of the inline script, which Python's
`.format` writes as `{{`/`}}`). -/

/-- Template text before the `base_href` slot. -/
def tpl_head : String :=
  "<!doctype html>\n<html lang=\"en\">\n<head>\n  <meta charset=\"utf-8\"/>\n" ++
  "  <meta name=\"viewport\" content=\"width=device-width,initial-scale=1\"/>\n" ++
  "  <base href=\""

/-- Template text between the `base_href` and `title` slots. -/
def tpl_mid1 : String := "\"/>\n  <title>"

/-- Template text between the `title` and `nav` slots. -/
def tpl_mid2 : String :=
  "</title>\n  <link rel=\"icon\" href=\"favicon.ico\" type=\"image/x-icon\">\n" ++
  "  <link rel=\"manifest\" href=\"manifest.json\" />\n" ++
  "  <link rel=\"stylesheet\" href=\"static/style.css\"/>\n</head>\n<body>\n" ++
  "  <button class=\"menu-btn\" onclick=\"toggleNav()\">☰</button>\n" ++
  "  <div class=\"layout\">\n    <nav class=\"sidebar\">\n      "

/-- Template text between the `nav` and `body` slots. -/
def tpl_mid3 : String := "\n    </nav>\n    <main>\n      "

/-- Template text after the `body` slot (the inline script). -/
def tpl_tail : String :=
  "\n    </main>\n  </div>\n  <script>\n    function copyCode(btn) \x7b\n" ++
  "      const code = btn.nextElementSibling.innerText;\n" ++
  "      navigator.clipboard.writeText(code).then(() => \x7b\n" ++
  "        btn.textContent = \x27Copied!\x27;\n" ++
  "        setTimeout(() => btn.textContent = \x27Copy\x27, 2000);\n        \n" ++
  "      \x7d);\n    \x7d\n\n    function toggleNav() \x7b\n" ++
  "      const sidebar = document.querySelector(\x27.sidebar\x27);\n" ++
  "      sidebar.classList.toggle(\x27open\x27);\n    \x7d\n\n" ++
  "    document.addEventListener(\x27DOMContentLoaded\x27, () => \x7b\n" ++
  "      const sidebar = document.querySelector(\x27.sidebar\x27);\n" ++
  "      sidebar.addEventListener(\x27click\x27, (e) => \x7b\n" ++
  "        if (e.target.tagName === \x27A\x27) \x7b\n" ++
  "          sidebar.classList.remove(\x27open\x27);\n        \x7d\n" ++
  "      \x7d);\n    \x7d);\n  </script>\n</body>\n</html>"

/-- Models `TEMPLATE.format(title=…, nav=…, body=…, base_href=…)`. -/
def template_format (title nav body base_href : String) : String :=
  tpl_head ++ base_href ++ tpl_mid1 ++ title ++ tpl_mid2 ++ nav ++ tpl_mid3 ++ body ++ tpl_tail

/-!  Reference model of relative-URL resolution, used to state link
correctness: a browser resolves the page's `<base href>` against the page's
URL (merge with the page's directory, then remove `.`/`..` segments), and
then resolves each link against that base. -/

/-- Splits a relative URL reference into its slash-separated segments. -/
def split_char (ch : Char) : List Char → List (List Char)
  | [] => [[]]
  | c :: rest =>
    let r := split_char ch rest
    if c == ch then [] :: r
    else
      match r with
      | [] => [[c]]
      | h :: t => (c :: h) :: t

/-- Nonempty slash-separated segments of a relative URL reference. -/
def url_segments (s : String) : List String :=
  ((split_char '/' s.data).filter (fun l => l ≠ [])).map String.mk

/-- Resolution of relative segments against a directory given by its
segment list: `..` pops a segment, `.` is ignored, anything else descends. -/
def resolve_segs (dir : List String) : List String → List String
  | [] => dir
  | seg :: rest =>
    if seg == ".." then resolve_segs dir.dropLast rest
    else if seg == "." then resolve_segs dir rest
    else resolve_segs (dir ++ [seg]) rest

/-- Site-root-relative segments a browser ends up requesting for a link
`href` on the page at relative output path `page_rel` carrying
`<base href>` `base`. -/
def resolve_href (page_rel : List String) (base href : String) : List String :=
  resolve_segs (resolve_segs page_rel.dropLast (url_segments base)) (url_segments href)

/-!  A line-level view of `render_nav`'s output, separating the fixed text
of each line from the depth-dependent indentation attribute.  Used to state
that the `depth` argument influences nothing but indentation. -/

/-- One output line of the navigation markup: either fixed text, or text
around an indentation attribute whose depth is the rendering depth plus
`extra` (the line's nesting offset below the rendered node). -/
inductive NavLine where
  | plain (s : String)
  | styled (pre : String) (extra : Nat) (post : String)

/-- Concrete text of a line when the node is rendered at `depth`. -/
def line_at (depth : Nat) : NavLine → String
  | .plain s => s
  | .styled pre extra post => pre ++ style_attr (depth + extra) ++ post

/-- Pushes a line one nesting level deeper. -/
def shift_line : NavLine → NavLine
  | .plain s => .plain s
  | .styled pre extra post => .styled pre (extra + 1) post

mutual

/-- Depth-independent line decomposition of `render_nav`'s output for a
node: every hyperlink target, active marker and open state lives in the
fixed `pre`/`post` text, and only the indentation attribute slot depends
on the rendering depth. -/
def nav_lines (n : Node) (cur : Option (List String)) (root : List String) :
    Option (List NavLine) :=
  match n with
  | .mk nm p true cs =>
    match nav_lines_children cs cur root with
    | none => none
    | some ls =>
      some (NavLine.styled ("<details" ++ open_attr cur p) 0
          ("><summary title=\"" ++ nm ++ "\">" ++ nm ++ "</summary>")
        :: (ls.map (List.map shift_line)).flatten ++ [NavLine.plain "</details>"])
  | .mk nm p false _ =>
    match relative_to p root with
    | none => none
    | some rel =>
      match class_attr_of cur rel root with
      | none => none
      | some cls =>
        some [NavLine.styled ("<a href=\"" ++ as_posix (with_suffix rel ".html") ++ "\"" ++ cls) 0
          (" title=\"" ++ nm ++ "\">" ++ nm ++ "</a>")]
termination_by sizeOf n

/-- Line decompositions of a list of sibling nodes, one entry per sibling. -/
def nav_lines_children (cs : List Node) (cur : Option (List String)) (root : List String) :
    Option (List (List NavLine)) :=
  match cs with
  | [] => some []
  | c :: rest =>
    match nav_lines c cur root, nav_lines_children rest cur root with
    | some a, some b => some (a :: b)
    | _, _ => none
termination_by sizeOf cs

end

/-!  Filesystem well-formedness: names inside one directory are distinct
(true of every real directory, and needed for the navigation's uniqueness
properties). -/

/-- Well-formedness of one filesystem entry: inside every directory the
entry names are pairwise distinct. -/
inductive EntryWf : FSEntry → Prop where
  | file (n : String) : EntryWf (.file n)
  | dir (n : String) (entries : List FSEntry)
      (hnames : List.Nodup (entries.map FSEntry.entryName))
      (hsub : ∀ e ∈ entries, EntryWf e) : EntryWf (.dir n entries)

/-- Well-formedness of a directory listing. -/
def DirWf (entries : List FSEntry) : Prop :=
  List.Nodup (entries.map FSEntry.entryName) ∧ ∀ e ∈ entries, EntryWf e

/-!  Basic unfolding lemmas. -/

theorem str_join_cons (sep x : String) (xs : List String) (h : xs ≠ []) :
    str_join sep (x :: xs) = x ++ sep ++ str_join sep xs := by
  cases xs with
  | nil => exact absurd rfl h
  | cons y ys => rfl

/-- The rendered fragment of a document node, given that both `relative_to`
calls succeed. -/
theorem render_nav_doc_eq (nm : String) (p : List String) (cs : List Node)
    (cur : Option (List String)) (root : List String) (d : Nat) (rel : List String) (cls : String)
    (hrel : relative_to p root = some rel) (hcls : class_attr_of cur rel root = some cls) :
    render_nav (Node.mk nm p false cs) cur root d =
      some ("<a href=\"" ++ as_posix (with_suffix rel ".html") ++ "\"" ++ cls ++
        style_attr d ++ " title=\"" ++ nm ++ "\">" ++ nm ++ "</a>") := by
  simp [render_nav, hrel, hcls]

/-- The rendered fragment of a directory node, given that the children
rendered successfully. -/
theorem render_nav_dir_eq (nm : String) (p : List String) (cs : List Node)
    (cur : Option (List String)) (root : List String) (d : Nat) (ss : List String)
    (h : render_children cs cur root (d + 1) = some ss) :
    render_nav (Node.mk nm p true cs) cur root d =
      some (str_join "\n"
        (("<details" ++ open_attr cur p ++ style_attr d ++
          "><summary title=\"" ++ nm ++ "\">" ++ nm ++ "</summary>") :: ss ++ ["</details>"])) := by
  simp [render_nav, h]

/-- The open attribute is emitted exactly when the directory's path is a
leading segment of the current document's path. -/
theorem open_attr_eq (cur p : List String) :
    open_attr (some cur) p = if p <+: cur then " open" else "" := by
  simp [open_attr, is_relative_to]

theorem dir_open_flags_list_mem (cs : List Node) (cur : Option (List String))
    (x : List String × Bool) (hx : x ∈ dir_open_flags_list cs cur) :
    ∃ c ∈ cs, x ∈ dir_open_flags c cur := by
  induction cs with
  | nil => simp [dir_open_flags_list] at hx
  | cons c rest ih =>
    rw [dir_open_flags_list] at hx
    rcases List.mem_append.mp hx with h1 | h2
    · exact ⟨c, List.mem_cons_self c rest, h1⟩
    · rcases ih h2 with ⟨c', hc', hx'⟩
      exact ⟨c', List.mem_cons_of_mem _ hc', hx'⟩

/-- Every recorded disclosure flag is the code's open test on that
directory's path. -/
theorem dir_open_flags_mem (n : Node) : ∀ (cur q : List String) (b : Bool),
    (q, b) ∈ dir_open_flags n (some cur) → b = is_relative_to cur q := by
  induction n using Node.ind with
  | h nm p bd cs ih =>
    intro cur q b hmem
    cases bd with
    | false => simp [dir_open_flags] at hmem
    | true =>
      rw [dir_open_flags] at hmem
      rcases List.mem_cons.mp hmem with h1 | h2
      · cases h1
        rfl
      · rcases dir_open_flags_list_mem cs _ _ h2 with ⟨c, hc, hx⟩
        exact ih c hc cur q b hx

/-- C1.  For every directory node and current document, the rendered markup
marks the collapsible container open if and only if the current document's
source path lies underneath the directory's source path (inclusive), so in
a built tree exactly the ancestor chain of the current document is open. -/
theorem claim1_open_branch_iff_ancestor :
    (∀ (nm : String) (p : List String) (cs : List Node) (cur root : List String) (d : Nat)
      (ss : List String), render_children cs (some cur) root (d + 1) = some ss →
      render_nav (Node.mk nm p true cs) (some cur) root d =
        some ("<details" ++ (if p <+: cur then " open" else "") ++ style_attr d ++
          "><summary title=\"" ++ nm ++ "\">" ++ nm ++ "</summary>" ++ "\n" ++
          str_join "\n" (ss ++ ["</details>"]))) ∧
    (∀ (path : List String) (entries : List FSEntry) (cur q : List String) (b : Bool),
      (q, b) ∈ dir_open_flags (build_tree path entries) (some cur) →
      (b = true ↔ q <+: cur)) := by
  constructor
  · intro nm p cs cur root d ss h
    rw [render_nav_dir_eq nm p cs (some cur) root d ss h]
    simp only [List.cons_append]
    rw [str_join_cons "\n" _ (ss ++ ["</details>"]) (by simp)]
    rw [open_attr_eq]
  · intro path entries cur q b hmem
    have hb := dir_open_flags_mem (build_tree path entries) cur q b hmem
    subst hb
    simp [is_relative_to]

/-- Witness for C1 at a concrete tree: the branch holding the current
document renders open, and the root directory's flag is on because it is
an ancestor of the current document. -/
theorem claim1_witness :
    render_nav (Node.mk "guide" ["content", "guide"] true [])
        (some ["content", "guide", "intro.md"]) ["content"] 0 =
      some ("<details" ++
        (if ["content", "guide"] <+: ["content", "guide", "intro.md"] then " open" else "") ++
        style_attr 0 ++ "><summary title=\"guide\">guide</summary>" ++ "\n" ++
        str_join "\n" ([] ++ ["</details>"])) ∧
    (true = true ↔ ["content"] <+: ["content", "intro.md"]) := by
  constructor
  · exact claim1_open_branch_iff_ancestor.1 "guide" ["content", "guide"] []
      ["content", "guide", "intro.md"] ["content"] 0 [] (by simp [render_children])
  · exact claim1_open_branch_iff_ancestor.2 ["content"] [FSEntry.file "intro.md"]
      ["content", "intro.md"] ["content"] true
      (by simp +decide [build_tree, build_children, py_sorted, insert_le, entry_le,
        FSEntry.isFileEntry, FSEntry.entryName, str_le, py_lower, pySuffix, pyStem, last_dot_idx,
        dir_open_flags, dir_open_flags_list, is_relative_to])

/-- C6 (counterexample).  The claim says the page title is the inner text
of the first level-1..3 heading whenever such a heading exists; but for the
body `<h1></h1>` the heading exists with empty inner text, and the code's
`extract_title(body) or stem` falls back to the stem because the empty
string is falsy in Python. -/
theorem claim6_counterexample :
    extract_title "<h1></h1>" = some "" ∧
    page_title "<h1></h1>" "doc" = "doc" ∧ ("doc" : String) ≠ "" := by
  refine ⟨rfl, rfl, by decide⟩

/-- C6 (amended).  The page title is the inner text of the first level-1..3
heading when that heading exists and its inner text is nonempty; otherwise
(no heading, or a heading with empty inner text) it is the document's
filename without extension. -/
theorem claim6_title_rule (body stem : String) :
    (∀ t, extract_title body = some t → t ≠ "" → page_title body stem = t) ∧
    (extract_title body = none ∨ extract_title body = some "" → page_title body stem = stem) := by
  constructor
  · intro t ht hne
    simp [page_title, ht, hne]
  · intro h
    rcases h with h | h <;> simp [page_title, h]

/-- Witness for C6: a nonempty heading becomes the title; a missing heading
falls back to the stem. -/
theorem claim6_witness :
    page_title "<h2>Hello</h2>" "doc" = "Hello" ∧ page_title "plain text" "doc" = "doc" := by
  constructor
  · exact (claim6_title_rule "<h2>Hello</h2>" "doc").1 "Hello" rfl (by decide)
  · exact (claim6_title_rule "plain text" "doc").2 (Or.inl rfl)

/-- C9.  No markdown file found by the scan means no redirect page is
written; otherwise exactly one redirect is written and it targets the first
document in scan order (extension swapped, POSIX separators). -/
theorem claim9_index_redirect (entries : List FSEntry) :
    (index_redirect entries = none ↔ rglob_md entries = []) ∧
    (∀ p rest, rglob_md entries = p :: rest →
      index_redirect entries =
        some ("<meta http-equiv=\"refresh\" content=\"0; url=" ++
          as_posix (with_suffix p ".html") ++ "\">")) := by
  constructor
  · unfold index_redirect
    cases h : rglob_md entries <;> simp
  · intro p rest h
    unfold index_redirect
    rw [h]

/-- Witness for C9: a single markdown file produces an index redirect to
its page, and an empty input produces none. -/
theorem claim9_witness :
    index_redirect [FSEntry.file "intro.md"] =
      some ("<meta http-equiv=\"refresh\" content=\"0; url=" ++
        as_posix (with_suffix ["intro.md"] ".html") ++ "\">") ∧
    index_redirect [] = none := by
  constructor
  · exact (claim9_index_redirect [FSEntry.file "intro.md"]).2 ["intro.md"] []
      (by simp +decide [rglob_md, rglob_md_dirs, glob_md_name])
  · exact (claim9_index_redirect []).1.mpr (by simp [rglob_md, rglob_md_dirs])

/-- C10.  Node names and titles are spliced into the markup verbatim, with
no HTML escaping: the document link text and `title` attribute, the
directory summary text and `title` attribute, and the page `<title>` slot
all receive the raw string. -/
theorem claim10_verbatim_interpolation :
    (∀ (nm : String) (p : List String) (cs : List Node) (cur : Option (List String))
      (root : List String) (d : Nat) (rel : List String) (cls : String),
      relative_to p root = some rel → class_attr_of cur rel root = some cls →
      render_nav (Node.mk nm p false cs) cur root d =
        some ("<a href=\"" ++ as_posix (with_suffix rel ".html") ++ "\"" ++ cls ++
          style_attr d ++ " title=\"" ++ nm ++ "\">" ++ nm ++ "</a>")) ∧
    (∀ (nm : String) (p : List String) (cs : List Node) (cur : Option (List String))
      (root : List String) (d : Nat) (ss : List String),
      render_children cs cur root (d + 1) = some ss →
      render_nav (Node.mk nm p true cs) cur root d =
        some (str_join "\n"
          (("<details" ++ open_attr cur p ++ style_attr d ++
            "><summary title=\"" ++ nm ++ "\">" ++ nm ++ "</summary>") :: ss ++ ["</details>"]))) ∧
    (∀ title nav body base_href, template_format title nav body base_href =
      tpl_head ++ base_href ++ tpl_mid1 ++ title ++ tpl_mid2 ++ nav ++ tpl_mid3 ++ body ++ tpl_tail) := by
  refine ⟨?_, ?_, ?_⟩
  · intro nm p cs cur root d rel cls hrel hcls
    exact render_nav_doc_eq nm p cs cur root d rel cls hrel hcls
  · intro nm p cs cur root d ss h
    exact render_nav_dir_eq nm p cs cur root d ss h
  · intro title nav body base_href
    rfl

/-- Witness for C10: a name holding `<`, `&` and `"` flows into the link
markup unchanged, and so does a title into the template's title slot. -/
theorem claim10_witness :
    render_nav (Node.mk "a<b&\"c" ["content", "x.md"] false []) none ["content"] 0 =
      some ("<a href=\"" ++ as_posix (with_suffix ["x.md"] ".html") ++ "\"" ++ "" ++
        style_attr 0 ++ " title=\"" ++ "a<b&\"c" ++ "\">" ++ "a<b&\"c" ++ "</a>") ∧
    template_format "t<&\"t" "N" "B" "./" =
      tpl_head ++ "./" ++ tpl_mid1 ++ "t<&\"t" ++ tpl_mid2 ++ "N" ++ tpl_mid3 ++ "B" ++ tpl_tail := by
  constructor
  · exact claim10_verbatim_interpolation.1 "a<b&\"c" ["content", "x.md"] [] none ["content"] 0
      ["x.md"] "" (by simp +decide [relative_to]) (by simp [class_attr_of])
  · exact claim10_verbatim_interpolation.2.2 "t<&\"t" "N" "B" "./"

/-!  Properties of the copy-button injection (C5). -/

theorem inject_copy_none {s : List Char} (hfb : find_code_block s = none) : inject_copy s = s := by
  rw [inject_copy]
  split
  · rfl
  · rename_i b m r h
    rw [hfb] at h
    cases h

theorem inject_copy_some {s b m r : List Char} (hfb : find_code_block s = some (b, m, r)) :
    inject_copy s = b ++ COPY_BTN.data ++ m ++ inject_copy r := by
  rw [inject_copy]
  split
  · rename_i h
    rw [hfb] at h
    cases h
  · rename_i b' m' r' h
    rw [hfb] at h
    obtain ⟨rfl, rfl, rfl⟩ := by simpa using h.symm
    simp [List.append_assoc]

theorem count_code_blocks_none {s : List Char} (hfb : find_code_block s = none) :
    count_code_blocks s = 0 := by
  rw [count_code_blocks]
  split
  · rfl
  · rename_i b m r h
    rw [hfb] at h
    cases h

theorem count_code_blocks_some {s b m r : List Char} (hfb : find_code_block s = some (b, m, r)) :
    count_code_blocks s = 1 + count_code_blocks r := by
  rw [count_code_blocks]
  split
  · rename_i h
    rw [hfb] at h
    cases h
  · rename_i b' m' r' h
    rw [hfb] at h
    obtain ⟨rfl, rfl, rfl⟩ := by simpa using h.symm
    rfl

theorem code_block_split_none {s : List Char} (hfb : find_code_block s = none) :
    code_block_split s = ([], s) := by
  rw [code_block_split]
  split
  · rfl
  · rename_i b m r h
    rw [hfb] at h
    cases h

theorem code_block_split_some {s b m r : List Char} (hfb : find_code_block s = some (b, m, r)) :
    code_block_split s = ((b, m) :: (code_block_split r).1, (code_block_split r).2) := by
  rw [code_block_split]
  split
  · rename_i h
    rw [hfb] at h
    cases h
  · rename_i b' m' r' h
    rw [hfb] at h
    obtain ⟨rfl, rfl, rfl⟩ := by simpa using h.symm
    rfl

/-- Shape of a successful `find_code_block`. -/
theorem find_code_block_eq {s : List Char} {i j : Nat}
    (hi : findSub OPEN_TAG s = some i)
    (hj : findSub CLOSE_TAG ((s.drop i).drop 10) = some j) :
    find_code_block s =
      some (s.take i, (s.drop i).take (10 + j + 13), (s.drop i).drop (10 + j + 13)) := by
  unfold find_code_block
  simp only [hi, hj]

/-- A successful match decomposes the input, starts with `<pre><code` and
ends with `</code></pre>`. -/
theorem find_code_block_props {s b m r : List Char}
    (h : find_code_block s = some (b, m, r)) :
    s = b ++ m ++ r ∧ OPEN_TAG <+: m ∧ CLOSE_TAG <:+ m := by
  unfold find_code_block at h
  cases hi : findSub OPEN_TAG s with
  | none => rw [hi] at h; cases h
  | some i =>
    simp only [hi] at h
    cases hj : findSub CLOSE_TAG ((s.drop i).drop 10) with
    | none => rw [hj] at h; cases h
    | some j =>
      rw [hj] at h
      have heq := find_code_block_eq hi hj
      unfold find_code_block at heq
      simp only [hi, hj] at heq
      have h2 : ((s.take i, (s.drop i).take (10 + j + 13), (s.drop i).drop (10 + j + 13)) :
          List Char × List Char × List Char) = (b, m, r) := by
        have h3 := h
        exact Option.some.inj h3
      injection h2 with hb h4
      injection h4 with hm hr
      subst hb
      subst hm
      subst hr
      have hopen := (findSub_spec _ _ _ hi).1
      have hopen' : OPEN_TAG <+: s.drop i := List.isPrefixOf_iff_prefix.mp hopen
      have hlen10 : 10 ≤ (s.drop i).length := by
        have h5 := List.IsPrefix.length_le hopen'
        have h6 : OPEN_TAG.length = 10 := rfl
        omega
      have hclose := (findSub_spec _ _ _ hj).1
      have hclose' : CLOSE_TAG <+: (s.drop i).drop (10 + j) := by
        have h7 := List.isPrefixOf_iff_prefix.mp hclose
        rwa [List.drop_drop] at h7
      refine ⟨?_, ?_, ?_⟩
      · have hjoin : s.take i ++ ((s.drop i).take (10 + j + 13) ++ (s.drop i).drop (10 + j + 13)) = s := by
          rw [List.take_append_drop, List.take_append_drop]
        rw [List.append_assoc, hjoin]
      · have h8 : ((s.drop i).take (10 + j + 13)).take 10 = (s.drop i).take 10 := by
          rw [List.take_take]
          congr 1 <;> omega
        have h9 : OPEN_TAG = (s.drop i).take 10 := by
          have h10 := List.prefix_iff_eq_take.mp hopen'
          have h11 : OPEN_TAG.length = 10 := rfl
          rwa [h11] at h10
        rw [h9, ← h8]
        exact List.take_prefix _ _
      · refine ⟨((s.drop i).take (10 + j + 13)).take (10 + j), ?_⟩
        have h12 : List.drop (10 + j) (List.take (10 + j + 13) (s.drop i)) =
            List.take 13 (List.drop (10 + j) (s.drop i)) := (List.take_drop (10 + j) 13 _).symm
        have h13 : CLOSE_TAG = ((s.drop i).drop (10 + j)).take 13 := by
          have h14 := List.prefix_iff_eq_take.mp hclose'
          have h15 : CLOSE_TAG.length = 13 := rfl
          rwa [h15] at h14
        rw [h13, ← h12, List.take_append_drop]

/-- C5.  The post-processing step inserts exactly `k` copy triggers for a
body with `k` code-block matches, each immediately before its block: the
output is the input's decomposition with the button spliced in front of
every match, each match being a full `<pre><code…</code></pre>` block. -/
theorem claim5_copy_button_coverage : ∀ s : List Char,
    inject_copy s =
      ((code_block_split s).1.map (fun q => q.1 ++ COPY_BTN.data ++ q.2)).flatten ++
        (code_block_split s).2 ∧
    (code_block_split s).1.length = count_code_blocks s ∧
    s = ((code_block_split s).1.map (fun q => q.1 ++ q.2)).flatten ++ (code_block_split s).2 ∧
    ∀ q ∈ (code_block_split s).1, OPEN_TAG <+: q.2 ∧ CLOSE_TAG <:+ q.2 := by
  suffices key : ∀ (n : Nat) (s : List Char), s.length ≤ n →
      inject_copy s =
        ((code_block_split s).1.map (fun q => q.1 ++ COPY_BTN.data ++ q.2)).flatten ++
          (code_block_split s).2 ∧
      (code_block_split s).1.length = count_code_blocks s ∧
      s = ((code_block_split s).1.map (fun q => q.1 ++ q.2)).flatten ++ (code_block_split s).2 ∧
      ∀ q ∈ (code_block_split s).1, OPEN_TAG <+: q.2 ∧ CLOSE_TAG <:+ q.2 by
    intro s
    exact key s.length s (Nat.le_refl _)
  intro n
  induction n with
  | zero =>
    intro s hs
    cases hfb : find_code_block s with
    | none =>
      rw [inject_copy_none hfb, count_code_blocks_none hfb, code_block_split_none hfb]
      simp
    | some t =>
      obtain ⟨b, m, r⟩ := t
      have := find_code_block_shrink hfb
      omega
  | succ n ih =>
    intro s hs
    cases hfb : find_code_block s with
    | none =>
      rw [inject_copy_none hfb, count_code_blocks_none hfb, code_block_split_none hfb]
      simp
    | some t =>
      obtain ⟨b, m, r⟩ := t
      have hr := find_code_block_shrink hfb
      obtain ⟨ih1, ih2, ih3, ih4⟩ := ih r (by omega)
      obtain ⟨hsplit, hopen, hclose⟩ := find_code_block_props hfb
      rw [inject_copy_some hfb, count_code_blocks_some hfb, code_block_split_some hfb]
      refine ⟨?_, ?_, ?_, ?_⟩
      · rw [ih1]
        simp [List.append_assoc]
      · simp only [List.length_cons, ih2]
        omega
      · conv_lhs => rw [hsplit, ih3]
        simp [List.append_assoc]
      · intro q hq
        rcases List.mem_cons.mp hq with h1 | h2
        · subst h1
          exact ⟨hopen, hclose⟩
        · exact ih4 q h2

set_option maxRecDepth 8192 in
/-- Witness for C5: a body with two code blocks gets exactly two buttons,
one immediately before each block. -/
theorem claim5_witness :
    inject_copy "A<pre><code>x</code></pre>B<pre><code>y</code></pre>C".data =
      ("A" ++ COPY_BTN ++ "<pre><code>x</code></pre>" ++ "B" ++ COPY_BTN ++
        "<pre><code>y</code></pre>" ++ "C").data ∧
    count_code_blocks "A<pre><code>x</code></pre>B<pre><code>y</code></pre>C".data = 2 := by
  constructor
  · rw [(claim5_copy_button_coverage "A<pre><code>x</code></pre>B<pre><code>y</code></pre>C".data).1]
    simp +decide [code_block_split, find_code_block, findSub, OPEN_TAG, CLOSE_TAG, COPY_BTN]
  · rw [← (claim5_copy_button_coverage "A<pre><code>x</code></pre>B<pre><code>y</code></pre>C".data).2.1]
    simp +decide [code_block_split, find_code_block, findSub, OPEN_TAG, CLOSE_TAG]

/-!  Link correctness (C2): path components, POSIX joining, URL splitting
and relative resolution. -/

/-- Components suitable as path segments: nonempty, not a dot segment, and
free of separators. -/
def good_comps (ps : List String) : Prop :=
  ∀ c ∈ ps, c ≠ "" ∧ c ≠ "." ∧ c ≠ ".." ∧ '/' ∉ c.data

theorem relative_to_append (root rel : List String) :
    relative_to (root ++ rel) root = some rel := by
  simp [relative_to, List.isPrefixOf_iff_prefix, List.drop_left]

theorem split_char_of_not_mem {ch : Char} {xs : List Char} (h : ch ∉ xs) :
    split_char ch xs = [xs] := by
  induction xs with
  | nil => rfl
  | cons c rest ih =>
    rw [split_char]
    have hc : ¬(c == ch) = true := by
      simp only [beq_iff_eq]
      intro hcc
      exact h (hcc ▸ List.mem_cons_self c rest)
    rw [if_neg hc, ih (fun hm => h (List.mem_cons_of_mem c hm))]

theorem split_char_append_sep {ch : Char} {xs : List Char} (ys : List Char) (h : ch ∉ xs) :
    split_char ch (xs ++ ch :: ys) = xs :: split_char ch ys := by
  induction xs with
  | nil =>
    simp only [List.nil_append]
    rw [split_char, if_pos (by simp)]
  | cons c rest ih =>
    have hc : ¬(c == ch) = true := by
      simp only [beq_iff_eq]
      intro hcc
      exact h (hcc ▸ List.mem_cons_self c rest)
    rw [List.cons_append, split_char, if_neg hc,
      ih (fun hm => h (List.mem_cons_of_mem c hm))]

theorem split_char_ne_nil (ch : Char) (xs : List Char) : split_char ch xs ≠ [] := by
  cases xs with
  | nil => simp [split_char]
  | cons c rest =>
    rw [split_char]
    by_cases hc : (c == ch) = true
    · simp [hc]
    · simp only [hc]
      cases hr : split_char ch rest <;> simp

/-- Splitting the POSIX join of good components recovers the components. -/
theorem url_segments_as_posix (comps : List String) (h : good_comps comps) :
    url_segments (as_posix comps) = comps := by
  induction comps with
  | nil => rfl
  | cons c rest ih =>
    obtain ⟨hne, -, -, hslash⟩ := h c (List.mem_cons_self c rest)
    have hrest : good_comps rest := fun x hx => h x (List.mem_cons_of_mem c hx)
    cases rest with
    | nil =>
      show url_segments c = [c]
      unfold url_segments
      rw [split_char_of_not_mem hslash]
      have hdata : c.data ≠ [] := by
        intro hd
        exact hne (by cases c; simp at hd; simp [hd])
      simp [hdata]
    | cons c2 rest2 =>
      show url_segments (c ++ "/" ++ as_posix (c2 :: rest2)) = c :: c2 :: rest2
      unfold url_segments at *
      have hdata : (c ++ "/" ++ as_posix (c2 :: rest2)).data =
          c.data ++ '/' :: (as_posix (c2 :: rest2)).data := by
        simp
      rw [hdata, split_char_append_sep _ hslash]
      have hcd : c.data ≠ [] := by
        intro hd
        exact hne (by cases c; simp at hd; simp [hd])
      rw [List.filter_cons_of_pos (by simpa using hcd), List.map_cons]
      have hmk : String.mk c.data = c := rfl
      rw [hmk, ih hrest]

/-- Splitting `"../" * n` yields `n` parent-directory segments. -/
theorem url_segments_repeat_up (n : Nat) :
    url_segments (repeat_str "../" n) = List.replicate n ".." := by
  induction n with
  | zero => rfl
  | succ k ih =>
    show url_segments ("../" ++ repeat_str "../" k) = List.replicate (k + 1) ".."
    unfold url_segments at *
    have hdata : ("../" ++ repeat_str "../" k).data =
        ['.', '.'] ++ '/' :: (repeat_str "../" k).data := by simp
    rw [hdata, split_char_append_sep _ (by decide)]
    rw [List.filter_cons_of_pos (by decide), List.map_cons, ih]
    rfl

/-- A directory is fully popped by as many `..` segments as it has. -/
theorem resolve_segs_up (dir : List String) :
    resolve_segs dir (List.replicate dir.length "..") = [] := by
  suffices key : ∀ (n : Nat) (d : List String), d.length = n →
      resolve_segs d (List.replicate n "..") = [] by
    exact key dir.length dir rfl
  intro n
  induction n with
  | zero =>
    intro d hd
    rw [List.length_eq_zero] at hd
    subst hd
    rfl
  | succ k ih =>
    intro d hd
    rw [List.replicate_succ, resolve_segs, if_pos (show (".." == "..") = true from rfl)]
    exact ih d.dropLast (by simp [hd])

/-- Dot-free segments resolve by plain descent. -/
theorem resolve_segs_no_dots (segs : List String) :
    ∀ dir : List String, (∀ x ∈ segs, x ≠ ".." ∧ x ≠ ".") →
      resolve_segs dir segs = dir ++ segs := by
  induction segs with
  | nil => intro dir _; simp [resolve_segs]
  | cons seg rest ih =>
    intro dir h
    obtain ⟨h1, h2⟩ := h seg (List.mem_cons_self seg rest)
    rw [resolve_segs, if_neg (by simpa using h1), if_neg (by simpa using h2)]
    rw [ih (dir ++ [seg]) (fun x hx => h x (List.mem_cons_of_mem seg hx))]
    simp

theorem swap_suffix_html_good (nm : String) (hslash : '/' ∉ nm.data) :
    swap_suffix nm ".html" ≠ "" ∧ swap_suffix nm ".html" ≠ "." ∧
    swap_suffix nm ".html" ≠ ".." ∧ '/' ∉ (swap_suffix nm ".html").data := by
  have key : ∀ x : String, '/' ∉ x.data →
      (x ++ ".html" ≠ "" ∧ x ++ ".html" ≠ "." ∧ x ++ ".html" ≠ ".." ∧
        '/' ∉ (x ++ ".html").data) := by
    intro x hx
    have hl : (x ++ ".html").length = x.length + 5 := by
      rw [String.length_append]
      rfl
    refine ⟨?_, ?_, ?_, ?_⟩
    · intro h
      have h2 := congrArg String.length h
      rw [hl] at h2
      have h3 : ("" : String).length = 0 := rfl
      rw [h3] at h2
      omega
    · intro h
      have h2 := congrArg String.length h
      rw [hl] at h2
      have h3 : ("." : String).length = 1 := rfl
      rw [h3] at h2
      omega
    · intro h
      have h2 := congrArg String.length h
      rw [hl] at h2
      have h3 : (".." : String).length = 2 := rfl
      rw [h3] at h2
      omega
    · intro h
      rw [String.data_append] at h
      rcases List.mem_append.mp h with h1 | h1
      · exact hx h1
      · simp at h1
  unfold swap_suffix
  by_cases hold : (pySuffix nm == "") = true
  · rw [if_pos hold]
    exact key nm hslash
  · rw [if_neg hold]
    refine key (String.mk (nm.data.take (nm.length - (pySuffix nm).length))) ?_
    intro hm
    exact hslash (List.take_subset _ _ hm)

theorem with_suffix_eq (p : List String) (hp : p ≠ []) (suf : String) :
    with_suffix p suf = p.dropLast ++ [swap_suffix (p.getLast hp) suf] := by
  unfold with_suffix
  rw [List.getLast?_eq_getLast p hp]

theorem with_suffix_html_good (p : List String) (hp : p ≠ []) (h : good_comps p) :
    good_comps (with_suffix p ".html") ∧
    (with_suffix p ".html").dropLast = p.dropLast ∧
    (with_suffix p ".html").length = p.length := by
  rw [with_suffix_eq p hp]
  refine ⟨?_, ?_, ?_⟩
  · intro c hc
    rcases List.mem_append.mp hc with h1 | h1
    · exact h c (List.dropLast_prefix p |>.subset h1)
    · have hc2 : c = swap_suffix (p.getLast hp) ".html" := by simpa using h1
      subst hc2
      obtain ⟨-, -, -, hs⟩ := h (p.getLast hp) (List.getLast_mem hp)
      obtain ⟨g1, g2, g3, g4⟩ := swap_suffix_html_good (p.getLast hp) hs
      exact ⟨g1, g2, g3, g4⟩
  · exact List.dropLast_concat
  · have h1 : 0 < p.length := List.length_pos.mpr hp
    simp
    omega

/-- C2.  A document link is the node's root-relative path with the suffix
swapped to `.html` in POSIX form; the page's base reference is `n`
parent-directory segments for depth `n` (`./` at depth 0); and resolving
any such link against the page's base reference lands exactly on the
target's mirrored output path, regardless of depth. -/
theorem claim2_link_depth_correct :
    (∀ (nm : String) (root rel : List String) (cs : List Node) (cur : Option (List String))
      (d : Nat) (cls : String), class_attr_of cur rel root = some cls →
      render_nav (Node.mk nm (root ++ rel) false cs) cur root d =
        some ("<a href=\"" ++ as_posix (with_suffix rel ".html") ++ "\"" ++ cls ++
          style_attr d ++ " title=\"" ++ nm ++ "\">" ++ nm ++ "</a>")) ∧
    (∀ rel_md : List String, base_href_of rel_md =
      if rel_md.length - 1 > 0 then repeat_str "../" (rel_md.length - 1) else "./") ∧
    (∀ page_rel target_rel : List String, good_comps page_rel → good_comps target_rel →
      page_rel ≠ [] → target_rel ≠ [] →
      resolve_href (with_suffix page_rel ".html") (base_href_of page_rel)
        (as_posix (with_suffix target_rel ".html")) = with_suffix target_rel ".html") := by
  refine ⟨?_, ?_, ?_⟩
  · intro nm root rel cs cur d cls hcls
    exact render_nav_doc_eq nm (root ++ rel) cs cur root d rel cls (relative_to_append root rel) hcls
  · intro rel_md
    rfl
  · intro page_rel target_rel hgp hgt hpne htne
    obtain ⟨hgood_t, -, -⟩ := with_suffix_html_good target_rel htne hgt
    obtain ⟨-, hdrop, -⟩ := with_suffix_html_good page_rel hpne hgp
    unfold resolve_href
    rw [hdrop, url_segments_as_posix _ hgood_t]
    have hres1 : resolve_segs page_rel.dropLast (url_segments (base_href_of page_rel)) = [] := by
      have hp1 : 0 < page_rel.length := List.length_pos.mpr hpne
      by_cases hlen : page_rel.length = 1
      · have hb : base_href_of page_rel = "./" := by
          unfold base_href_of
          rw [hlen]
          rfl
        have hd0 : page_rel.dropLast = [] := by
          have h2 : page_rel.dropLast.length = 0 := by simp [hlen]
          exact List.length_eq_zero.mp h2
        rw [hb, hd0]
        rfl
      · have hlt : 0 < page_rel.length - 1 := by omega
        have hb : base_href_of page_rel = repeat_str "../" (page_rel.length - 1) := by
          unfold base_href_of
          rw [if_pos hlt]
        rw [hb, url_segments_repeat_up]
        have hdl : page_rel.dropLast.length = page_rel.length - 1 := by simp
        rw [← hdl]
        exact resolve_segs_up page_rel.dropLast
    rw [hres1]
    exact (resolve_segs_no_dots _ []
      (fun x hx => ⟨(hgood_t x hx).2.2.1, (hgood_t x hx).2.1⟩)).trans (by simp)

/-- Witness for C2 at depth 1: the link of `guide/setup.md` and the page's
base reference resolve to the target's output page. -/
theorem claim2_witness :
    render_nav (Node.mk "setup" (["content"] ++ ["guide", "setup.md"]) false []) none
        ["content"] 1 =
      some ("<a href=\"" ++ as_posix (with_suffix ["guide", "setup.md"] ".html") ++ "\"" ++ "" ++
        style_attr 1 ++ " title=\"" ++ "setup" ++ "\">" ++ "setup" ++ "</a>") ∧
    resolve_href (with_suffix ["guide", "setup.md"] ".html")
        (base_href_of ["guide", "setup.md"])
        (as_posix (with_suffix ["about.md"] ".html")) = with_suffix ["about.md"] ".html" := by
  constructor
  · exact claim2_link_depth_correct.1 "setup" ["content"] ["guide", "setup.md"] [] none 1 "" rfl
  · exact claim2_link_depth_correct.2.2 ["guide", "setup.md"] ["about.md"]
      (by unfold good_comps; decide) (by unfold good_comps; decide) (by decide) (by decide)

/-!  Depth independence of the rendered navigation (C8). -/

theorem str_join_append (sep : String) : ∀ (a b : List String), a ≠ [] → b ≠ [] →
    str_join sep (a ++ b) = str_join sep a ++ sep ++ str_join sep b := by
  intro a
  induction a with
  | nil => intro b ha _; exact absurd rfl ha
  | cons x rest ih =>
    intro b _ hb
    cases rest with
    | nil =>
      simp only [List.nil_append, List.cons_append]
      rw [str_join_cons sep x b hb]
      rfl
    | cons y ys =>
      rw [List.cons_append, str_join_cons sep x ((y :: ys) ++ b) (by simp),
        str_join_cons sep x (y :: ys) (by simp), ih b (by simp) hb]
      simp [String.append_assoc]

theorem flatten_ne_nil {gs : List (List String)} (hne : gs ≠ [])
    (hg : ∀ g ∈ gs, g ≠ []) : gs.flatten ≠ [] := by
  cases gs with
  | nil => exact absurd rfl hne
  | cons g rest =>
    have h1 := hg g (List.mem_cons_self g rest)
    simp only [List.flatten_cons]
    intro h2
    rcases List.append_eq_nil.mp h2 with ⟨h3, -⟩
    exact h1 h3

/-- Joining per-group joins equals joining the flattened list, for
nonempty groups. -/
theorem str_join_flatten (sep : String) : ∀ (gs : List (List String)),
    (∀ g ∈ gs, g ≠ []) → str_join sep (gs.map (str_join sep)) = str_join sep gs.flatten := by
  intro gs
  induction gs with
  | nil => intro _; rfl
  | cons g rest ih =>
    intro hg
    have hgne := hg g (List.mem_cons_self g rest)
    have hrest : ∀ x ∈ rest, x ≠ [] := fun x hx => hg x (List.mem_cons_of_mem g hx)
    cases rest with
    | nil => simp [str_join]
    | cons g2 rest2 =>
      rw [List.map_cons, List.flatten_cons,
        str_join_cons sep (str_join sep g) (List.map (str_join sep) (g2 :: rest2)) (by simp),
        ih hrest,
        str_join_append sep g ((g2 :: rest2).flatten) hgne
          (flatten_ne_nil (by simp) hrest)]

theorem line_at_shift (d : Nat) (ln : NavLine) :
    line_at d (shift_line ln) = line_at (d + 1) ln := by
  cases ln with
  | plain s => rfl
  | styled pre k post =>
    show pre ++ style_attr (d + (k + 1)) ++ post = pre ++ style_attr (d + 1 + k) ++ post
    have h : d + (k + 1) = d + 1 + k := by omega
    rw [h]

theorem nav_lines_ne_nil {n : Node} {cur : Option (List String)} {root : List String}
    {L : List NavLine} (h : nav_lines n cur root = some L) : L ≠ [] := by
  cases n with
  | mk nm p bd cs =>
    cases bd with
    | true =>
      rw [nav_lines] at h
      cases hc : nav_lines_children cs cur root with
      | none => rw [hc] at h; cases h
      | some ls =>
        rw [hc] at h
        have h2 := Option.some.inj h
        rw [← h2]
        simp
    | false =>
      rw [nav_lines] at h
      cases hr : relative_to p root with
      | none => rw [hr] at h; cases h
      | some rel =>
        simp only [hr] at h
        cases hcl : class_attr_of cur rel root with
        | none => rw [hcl] at h; cases h
        | some cls =>
          rw [hcl] at h
          have h2 := Option.some.inj h
          rw [← h2]
          simp

theorem nav_lines_children_mem : ∀ (cs : List Node) (cur : Option (List String))
    (root : List String) (ls : List (List NavLine)),
    nav_lines_children cs cur root = some ls →
    ∀ a ∈ ls, ∃ c ∈ cs, nav_lines c cur root = some a := by
  intro cs
  induction cs with
  | nil =>
    intro cur root ls h a ha
    rw [nav_lines_children] at h
    cases Option.some.inj h
    simp at ha
  | cons c rest ih =>
    intro cur root ls h a ha
    rw [nav_lines_children] at h
    cases h1 : nav_lines c cur root with
    | none => rw [h1] at h; cases h
    | some x =>
      rw [h1] at h
      cases h2 : nav_lines_children rest cur root with
      | none => rw [h2] at h; cases h
      | some b =>
        rw [h2] at h
        cases Option.some.inj h
        rcases List.mem_cons.mp ha with h3 | h3
        · exact ⟨c, List.mem_cons_self c rest, h3 ▸ h1⟩
        · rcases ih cur root b h2 a h3 with ⟨c', hc', hx⟩
          exact ⟨c', List.mem_cons_of_mem c hc', hx⟩

theorem str_join_block_aux (ftr : String) (f : α → List String) :
    ∀ ls : List α, (∀ L ∈ ls, f L ≠ []) →
    str_join "\n" (ls.map (fun L => str_join "\n" (f L)) ++ [ftr]) =
    str_join "\n" ((ls.map f).flatten ++ [ftr]) := by
  intro ls
  induction ls with
  | nil => intro _; rfl
  | cons L rest ih =>
    intro hg
    have hL := hg L (List.mem_cons_self L rest)
    have hrest : ∀ x ∈ rest, f x ≠ [] := fun x hx => hg x (List.mem_cons_of_mem L hx)
    rw [List.map_cons, List.cons_append,
      str_join_cons "\n" _ (rest.map (fun L => str_join "\n" (f L)) ++ [ftr]) (by simp),
      ih hrest, List.map_cons, List.flatten_cons, List.append_assoc,
      str_join_append "\n" (f L) ((rest.map f).flatten ++ [ftr]) hL (by simp)]

/-- Joining a header line, per-group joined strings and a footer equals
joining the header, the flattened groups and the footer. -/
theorem str_join_block (hdr ftr : String) (f : α → List String) (ls : List α)
    (hg : ∀ L ∈ ls, f L ≠ []) :
    str_join "\n" ((hdr :: ls.map (fun L => str_join "\n" (f L))) ++ [ftr]) =
    str_join "\n" ((hdr :: (ls.map f).flatten) ++ [ftr]) := by
  rw [List.cons_append, List.cons_append,
    str_join_cons "\n" hdr (ls.map (fun L => str_join "\n" (f L)) ++ [ftr]) (by simp),
    str_join_cons "\n" hdr ((ls.map f).flatten ++ [ftr]) (by simp),
    str_join_block_aux ftr f ls hg]

/-- C8.  The rendered markup factors through a depth-independent line
decomposition: `render_nav` at any depth equals `nav_lines` (which does not
take the depth) with only the indentation attribute instantiated at
`depth`.  Hence two renderings differing only in depth have identical
hyperlink targets, active markers and open states; depth affects only the
`margin-left` indentation values. -/
theorem claim8_depth_only_indents : ∀ (n : Node) (cur : Option (List String))
    (root : List String) (d : Nat),
    render_nav n cur root d =
      (nav_lines n cur root).map (fun L => str_join "\n" (L.map (line_at d))) := by
  intro n
  induction n using Node.ind with
  | h nm p bd cs ih =>
    have children_rel : ∀ (cur : Option (List String)) (root : List String) (d : Nat),
        render_children cs cur root d =
          (nav_lines_children cs cur root).map
            (fun ls => ls.map (fun L => str_join "\n" (L.map (line_at d)))) := by
      clear bd
      induction cs with
      | nil =>
        intro cur root d
        rw [render_children, nav_lines_children]
        rfl
      | cons c rest ihc =>
        intro cur root d
        have hcr := ih c (List.mem_cons_self c rest) cur root d
        have hrest := ihc (fun x hx => ih x (List.mem_cons_of_mem c hx)) cur root d
        rw [render_children, nav_lines_children, hcr, hrest]
        cases h1 : nav_lines c cur root with
        | none => simp
        | some a =>
          cases h2 : nav_lines_children rest cur root with
          | none => simp
          | some b => simp
    intro cur root d
    cases bd with
    | false =>
      rw [render_nav, nav_lines]
      cases hr : relative_to p root with
      | none => simp [hr]
      | some rel =>
        simp only [hr]
        cases hcl : class_attr_of cur rel root with
        | none => simp
        | some cls =>
          simp only [Option.map_some', List.map_cons, List.map_nil]
          show some _ = some (str_join "\n" [line_at d (NavLine.styled _ 0 _)])
          rw [str_join]
          show some _ = some (_ ++ style_attr (d + 0) ++ _)
          rw [Nat.add_zero]
          simp [String.append_assoc]
    | true =>
      rw [render_nav, nav_lines, children_rel cur root (d + 1)]
      cases hc : nav_lines_children cs cur root with
      | none => simp
      | some ls =>
        simp only [Option.map_some']
        have hne : ∀ L ∈ ls, L ≠ [] := by
          intro L hL
          rcases nav_lines_children_mem cs cur root ls hc L hL with ⟨c, -, hcl⟩
          exact nav_lines_ne_nil hcl
        congr 1
        rw [List.map_append, List.map_cons]
        have hline : line_at d (NavLine.styled ("<details" ++ open_attr cur p) 0
            ("><summary title=\"" ++ nm ++ "\">" ++ nm ++ "</summary>")) =
            "<details" ++ open_attr cur p ++ style_attr d ++ "><summary title=\"" ++ nm ++
              "\">" ++ nm ++ "</summary>" := by
          show _ ++ style_attr (d + 0) ++ _ = _
          rw [Nat.add_zero]
          simp [String.append_assoc]
        rw [hline]
        have hmf : List.map (line_at d) (ls.map (List.map shift_line)).flatten =
            (ls.map (fun L => L.map (line_at (d + 1)))).flatten := by
          rw [List.map_flatten, List.map_map]
          congr 1
          apply List.map_congr_left
          intro L _
          show List.map (line_at d) (List.map shift_line L) = _
          rw [List.map_map]
          apply List.map_congr_left
          intro ln _
          exact line_at_shift d ln
        rw [hmf]
        have hplain : List.map (line_at d) [NavLine.plain "</details>"] = ["</details>"] := rfl
        rw [hplain]
        exact str_join_block _ _ (fun L => L.map (line_at (d + 1))) ls
          (by
            intro L hL
            simpa using hne L hL)

/-!  Child ordering of the built tree (C4). -/

theorem chars_le_total : ∀ a b : List Char, chars_le a b = true ∨ chars_le b a = true := by
  intro a
  induction a with
  | nil => intro b; left; rfl
  | cons x xs ih =>
    intro b
    cases b with
    | nil => right; rfl
    | cons y ys =>
      rcases Nat.lt_trichotomy x.toNat y.toNat with h1 | h1 | h1
      · left
        simp only [chars_le]
        rw [if_pos h1]
      · rcases ih ys with h3 | h3
        · left
          simp only [chars_le]
          rw [if_neg (by omega), if_neg (by omega)]
          exact h3
        · right
          simp only [chars_le]
          rw [if_neg (by omega), if_neg (by omega)]
          exact h3
      · right
        simp only [chars_le]
        rw [if_pos h1]

theorem chars_le_trans : ∀ a b c : List Char,
    chars_le a b = true → chars_le b c = true → chars_le a c = true := by
  intro a
  induction a with
  | nil => intro b c _ _; rfl
  | cons x xs ih =>
    intro b c hab hbc
    cases b with
    | nil => simp [chars_le] at hab
    | cons y ys =>
      cases c with
      | nil => simp [chars_le] at hbc
      | cons z zs =>
        simp only [chars_le] at hab hbc ⊢
        rcases Nat.lt_trichotomy x.toNat y.toNat with h1 | h1 | h1
        · rcases Nat.lt_trichotomy y.toNat z.toNat with h2 | h2 | h2
          · rw [if_pos (by omega)]
          · rw [if_pos (by omega)]
          · rw [if_neg (by omega), if_pos (by omega)] at hbc
            cases hbc
        · rcases Nat.lt_trichotomy y.toNat z.toNat with h2 | h2 | h2
          · rw [if_pos (by omega)]
          · rw [if_neg (by omega), if_neg (by omega)]
            rw [if_neg (by omega), if_neg (by omega)] at hab
            rw [if_neg (by omega), if_neg (by omega)] at hbc
            exact ih ys zs hab hbc
          · rw [if_neg (by omega), if_pos (by omega)] at hbc
            cases hbc
        · rw [if_neg (by omega), if_pos (by omega)] at hab
          cases hab

theorem entry_le_total : ∀ a b : FSEntry, entry_le a b = true ∨ entry_le b a = true := by
  intro a b
  rcases chars_le_total (py_lower a.entryName).data (py_lower b.entryName).data with h | h
  · cases ha : a.isFileEntry <;> cases hb : b.isFileEntry <;>
      simp [entry_le, str_le, ha, hb, h]
  · cases ha : a.isFileEntry <;> cases hb : b.isFileEntry <;>
      simp [entry_le, str_le, ha, hb, h]

theorem entry_le_trans : ∀ a b c : FSEntry,
    entry_le a b = true → entry_le b c = true → entry_le a c = true := by
  intro a b c hab hbc
  unfold entry_le str_le at *
  cases ha : a.isFileEntry <;> cases hb : b.isFileEntry <;> cases hc : c.isFileEntry <;>
    rw [ha, hb] at hab <;> rw [hb, hc] at hbc <;> simp_all <;>
    exact chars_le_trans _ _ _ hab hbc

theorem mem_insert_le {le : α → α → Bool} {x a : α} : ∀ {l : List α},
    a ∈ insert_le le x l ↔ a = x ∨ a ∈ l := by
  intro l
  induction l with
  | nil => simp [insert_le]
  | cons y ys ih =>
    rw [insert_le]
    by_cases h : le x y = true
    · rw [if_pos h]
      simp only [List.mem_cons]
    · rw [if_neg h]
      simp only [List.mem_cons, ih]
      tauto

theorem pairwise_insert_le {le : α → α → Bool}
    (htot : ∀ a b, le a b = true ∨ le b a = true)
    (htrans : ∀ a b c, le a b = true → le b c = true → le a c = true)
    (x : α) : ∀ l : List α, List.Pairwise (fun a b => le a b = true) l →
    List.Pairwise (fun a b => le a b = true) (insert_le le x l) := by
  intro l
  induction l with
  | nil => intro _; simp [insert_le]
  | cons y ys ih =>
    intro hp
    rw [insert_le]
    rcases List.pairwise_cons.mp hp with ⟨hy, hys⟩
    by_cases h : le x y = true
    · rw [if_pos h]
      refine List.pairwise_cons.mpr ⟨?_, hp⟩
      intro z hz
      rcases List.mem_cons.mp hz with rfl | hz2
      · exact h
      · exact htrans x y z h (hy z hz2)
    · rw [if_neg h]
      refine List.pairwise_cons.mpr ⟨?_, ih hys⟩
      intro z hz
      rcases mem_insert_le.mp hz with rfl | hz2
      · rcases htot y z with h2 | h2
        · exact h2
        · exact absurd h2 h
      · exact hy z hz2

theorem pairwise_py_sorted {le : α → α → Bool}
    (htot : ∀ a b, le a b = true ∨ le b a = true)
    (htrans : ∀ a b c, le a b = true → le b c = true → le a c = true) :
    ∀ l : List α, List.Pairwise (fun a b => le a b = true) (py_sorted le l) := by
  intro l
  induction l with
  | nil => simp [py_sorted]
  | cons x xs ih => exact pairwise_insert_le htot htrans x _ ih

theorem insert_le_perm (le : α → α → Bool) (x : α) : ∀ l : List α,
    List.Perm (insert_le le x l) (x :: l) := by
  intro l
  induction l with
  | nil => exact List.Perm.refl _
  | cons y ys ih =>
    rw [insert_le]
    by_cases h : le x y = true
    · rw [if_pos h]
    · rw [if_neg h]
      exact List.Perm.trans (List.Perm.cons y ih) (List.Perm.swap x y ys)

theorem py_sorted_perm (le : α → α → Bool) : ∀ l : List α, List.Perm (py_sorted le l) l := by
  intro l
  induction l with
  | nil => exact List.Perm.refl _
  | cons x xs ih =>
    exact List.Perm.trans (insert_le_perm le x (py_sorted le xs)) (List.Perm.cons x ih)

/-- The child node `build_children` makes out of a kept entry. -/
def child_node_of (path : List String) : FSEntry → Node
  | .dir cn ce => build_tree (path ++ [cn]) ce
  | .file fn => Node.mk (pyStem fn) (path ++ [fn]) false []

/-- Whether `build_children` keeps an entry. -/
def keeps_entry : FSEntry → Bool
  | .dir _ _ => true
  | .file fn => py_lower (pySuffix fn) == ".md"

theorem mem_build_children {path : List String} : ∀ {l : List FSEntry} {y : Node},
    y ∈ build_children path l → ∃ e ∈ l, y = child_node_of path e := by
  intro l
  induction l with
  | nil => intro y hy; rw [build_children] at hy; simp at hy
  | cons e rest ih =>
    intro y hy
    cases e with
    | dir cn ce =>
      rw [build_children] at hy
      rcases List.mem_cons.mp hy with rfl | h2
      · exact ⟨.dir cn ce, List.mem_cons_self _ _, rfl⟩
      · rcases ih h2 with ⟨e', he', hy'⟩
        exact ⟨e', List.mem_cons_of_mem _ he', hy'⟩
    | file fn =>
      rw [build_children] at hy
      by_cases h : (py_lower (pySuffix fn) == ".md") = true
      · rw [if_pos h] at hy
        rcases List.mem_cons.mp hy with rfl | h2
        · exact ⟨.file fn, List.mem_cons_self _ _, rfl⟩
        · rcases ih h2 with ⟨e', he', hy'⟩
          exact ⟨e', List.mem_cons_of_mem _ he', hy'⟩
      · rw [if_neg h] at hy
        rcases ih hy with ⟨e', he', hy'⟩
        exact ⟨e', List.mem_cons_of_mem _ he', hy'⟩

theorem child_node_of_is_dir (path : List String) (e : FSEntry) :
    (child_node_of path e).is_dir = !e.isFileEntry := by
  cases e with
  | dir cn ce => rw [child_node_of, build_tree]; rfl
  | file fn => rfl

theorem child_node_of_key (path : List String) (e : FSEntry) :
    (child_node_of path e).path.getLastD "" = e.entryName := by
  cases e with
  | dir cn ce =>
    rw [child_node_of, build_tree]
    show (path ++ [cn]).getLastD "" = cn
    simp [List.getLastD_eq_getLast?, List.getLast?_append]
  | file fn =>
    show (path ++ [fn]).getLastD "" = fn
    simp [List.getLastD_eq_getLast?, List.getLast?_append]

/-- The ordering the built children actually satisfy: a directory may
precede anything; two nodes of the same kind are ordered by the
case-lowered name of their underlying directory entry (the last component
of their source path: the directory name, or the document's file name with
its extension); a document never precedes a directory. -/
def child_ord (a b : Node) : Prop :=
  (a.is_dir = true ∧ b.is_dir = false) ∨
  (a.is_dir = b.is_dir ∧
    str_le (py_lower (a.path.getLastD "")) (py_lower (b.path.getLastD "")) = true)

theorem entry_le_child_ord {path : List String} {e f : FSEntry}
    (h : entry_le e f = true) : child_ord (child_node_of path e) (child_node_of path f) := by
  unfold child_ord
  rw [child_node_of_is_dir, child_node_of_is_dir, child_node_of_key, child_node_of_key]
  unfold entry_le at h
  cases he : e.isFileEntry <;> cases hf : f.isFileEntry <;> rw [he, hf] at h <;> simp_all

theorem pairwise_build_children {path : List String} : ∀ {l : List FSEntry},
    List.Pairwise (fun a b => entry_le a b = true) l →
    List.Pairwise child_ord (build_children path l) := by
  intro l
  induction l with
  | nil => intro _; rw [build_children]; simp
  | cons e rest ih =>
    intro hp
    rcases List.pairwise_cons.mp hp with ⟨he, hrest⟩
    have hhead : ∀ y ∈ build_children path rest, child_ord (child_node_of path e) y := by
      intro y hy
      rcases mem_build_children hy with ⟨f, hf, rfl⟩
      exact entry_le_child_ord (he f hf)
    cases e with
    | dir cn ce =>
      rw [build_children]
      exact List.pairwise_cons.mpr ⟨fun y hy => hhead y hy, ih hrest⟩
    | file fn =>
      rw [build_children]
      by_cases h : (py_lower (pySuffix fn) == ".md") = true
      · rw [if_pos h]
        exact List.pairwise_cons.mpr ⟨fun y hy => hhead y hy, ih hrest⟩
      · rw [if_neg h]
        exact ih hrest

theorem pairwise_split : ∀ l : List Node, List.Pairwise child_ord l →
    ∃ ds fs, l = ds ++ fs ∧ (∀ n ∈ ds, n.is_dir = true) ∧ ∀ n ∈ fs, n.is_dir = false := by
  intro l
  induction l with
  | nil => intro _; exact ⟨[], [], rfl, by simp, by simp⟩
  | cons n rest ih =>
    intro hp
    rcases List.pairwise_cons.mp hp with ⟨hn, hrest⟩
    rcases ih hrest with ⟨ds, fs, hsplit, hds, hfs⟩
    cases hd : n.is_dir with
    | true =>
      refine ⟨n :: ds, fs, by rw [hsplit, List.cons_append], ?_, hfs⟩
      intro x hx
      rcases List.mem_cons.mp hx with rfl | hx2
      · exact hd
      · exact hds x hx2
    | false =>
      have hds_nil : ds = [] := by
        cases ds with
        | nil => rfl
        | cons d ds2 =>
          have hmem : d ∈ rest := by
            rw [hsplit]
            exact List.mem_append.mpr (Or.inl (List.mem_cons_self d ds2))
          have hord := hn d hmem
          have hdd : d.is_dir = true := hds d (List.mem_cons_self d ds2)
          rcases hord with ⟨h1, -⟩ | ⟨h1, -⟩
          · rw [hd] at h1
            cases h1
          · rw [hd, hdd] at h1
            cases h1
      subst hds_nil
      refine ⟨[], n :: fs, by rw [hsplit, List.nil_append, List.nil_append], by simp, ?_⟩
      intro x hx
      rcases List.mem_cons.mp hx with rfl | hx2
      · exact hd
      · exact hfs x hx2

/-- C4 (counterexample).  The claim says the document group is sorted
case-insensitively by node name; but names of document nodes are stems
while the sort key is the full file name, so `a.b.md` sorts before `a.md`
and the displayed names come out as `["a.b", "a"]`, not sorted. -/
theorem claim4_counterexample :
    (build_tree ["content"] [FSEntry.file "a.b.md", FSEntry.file "a.md"]).children.map Node.name =
      ["a.b", "a"] ∧
    ¬ List.Pairwise (fun a b : String => str_le (py_lower a) (py_lower b) = true)
      ((build_tree ["content"]
        [FSEntry.file "a.b.md", FSEntry.file "a.md"]).children.map Node.name) := by
  have h : (build_tree ["content"]
      [FSEntry.file "a.b.md", FSEntry.file "a.md"]).children.map Node.name = ["a.b", "a"] := by
    simp +decide [build_tree, build_children, py_sorted, insert_le, entry_le, FSEntry.isFileEntry,
      FSEntry.entryName, pyStem, pySuffix, last_dot_idx, str_le, py_lower, Node.children, Node.name]
  refine ⟨h, ?_⟩
  rw [h]
  decide

/-- C4 (amended).  In every built directory node the children list all
subdirectories before all documents; both groups are ordered
case-insensitively by the underlying directory-entry name — the directory
name for subdirectories, and the source file name including its extension
(not the displayed stem) for documents.  The result is a function of the
ordered entry listing, hence deterministic. -/
theorem claim4_children_order (path : List String) (entries : List FSEntry) :
    List.Pairwise child_ord (build_tree path entries).children ∧
    ∃ ds fs, (build_tree path entries).children = ds ++ fs ∧
      (∀ n ∈ ds, n.is_dir = true) ∧ ∀ n ∈ fs, n.is_dir = false := by
  have hp : List.Pairwise child_ord (build_tree path entries).children := by
    rw [build_tree]
    show List.Pairwise child_ord (build_children path (py_sorted entry_le entries))
    exact pairwise_build_children
      (pairwise_py_sorted entry_le_total entry_le_trans entries)
  exact ⟨hp, pairwise_split _ hp⟩

/-!  Uniqueness of the active link (C3). -/

theorem doc_paths_build_tree (path : List String) (entries : List FSEntry) :
    doc_paths (build_tree path entries) =
      doc_paths_list (build_children path (py_sorted entry_le entries)) := by
  rw [build_tree, doc_paths]

/-- Every document path produced below a child loop extends the directory
path with the originating entry's name. -/
theorem build_children_doc_shape : ∀ (k : Nat) (l : List FSEntry), sizeOf l ≤ k →
    ∀ (path q : List String), q ∈ doc_paths_list (build_children path l) →
    ∃ e ∈ l, ∃ t, q = path ++ FSEntry.entryName e :: t := by
  intro k
  induction k with
  | zero =>
    intro l hl
    cases l with
    | nil => simp at hl
    | cons e rest => simp at hl
  | succ k ih =>
    intro l hl path q hq
    cases l with
    | nil =>
      rw [build_children, doc_paths_list] at hq
      simp at hq
    | cons e rest =>
      have hsz : sizeOf rest ≤ k := by
        have h1 : sizeOf (e :: rest) = 1 + sizeOf e + sizeOf rest := by simp
        have h2 : 0 < sizeOf e := by
          cases e <;> simp
        omega
      cases e with
      | dir cn ce =>
        rw [build_children, doc_paths_list] at hq
        rcases List.mem_append.mp hq with h1 | h1
        · rw [build_tree, doc_paths] at h1
          have hsz2 : sizeOf (py_sorted entry_le ce) ≤ k := by
            rw [sizeOf_py_sorted]
            have h3 : sizeOf (FSEntry.dir cn ce :: rest) =
                1 + (1 + sizeOf cn + sizeOf ce) + sizeOf rest := by simp
            omega
          rcases ih _ hsz2 (path ++ [cn]) q h1 with ⟨e', -, t, ht⟩
          refine ⟨.dir cn ce, List.mem_cons_self _ _, FSEntry.entryName e' :: t, ?_⟩
          rw [ht]
          simp [FSEntry.entryName]
        · rcases ih rest hsz path q h1 with ⟨e', he', t, ht⟩
          exact ⟨e', List.mem_cons_of_mem _ he', t, ht⟩
      | file fn =>
        rw [build_children] at hq
        by_cases h : (py_lower (pySuffix fn) == ".md") = true
        · rw [if_pos h, doc_paths_list] at hq
          rcases List.mem_append.mp hq with h1 | h1
          · rw [doc_paths] at h1
            have h2 : q = path ++ [fn] := by simpa using h1
            exact ⟨.file fn, List.mem_cons_self _ _, [], by rw [h2]; rfl⟩
          · rcases ih rest hsz path q h1 with ⟨e', he', t, ht⟩
            exact ⟨e', List.mem_cons_of_mem _ he', t, ht⟩
        · rw [if_neg h] at hq
          rcases ih rest hsz path q hq with ⟨e', he', t, ht⟩
          exact ⟨e', List.mem_cons_of_mem _ he', t, ht⟩

/-- With distinct names in every directory, the document paths of the
built tree are pairwise distinct. -/
theorem build_children_doc_nodup : ∀ (k : Nat) (l : List FSEntry), sizeOf l ≤ k →
    ∀ path : List String, List.Nodup (l.map FSEntry.entryName) → (∀ e ∈ l, EntryWf e) →
    List.Nodup (doc_paths_list (build_children path l)) := by
  intro k
  induction k with
  | zero =>
    intro l hl
    cases l with
    | nil =>
      intro path _ _
      rw [build_children, doc_paths_list]
      exact List.nodup_nil
    | cons e rest => simp at hl
  | succ k ih =>
    intro l hl path hnames hwf
    cases l with
    | nil =>
      rw [build_children, doc_paths_list]
      exact List.nodup_nil
    | cons e rest =>
      have hsz : sizeOf rest ≤ k := by
        have h1 : sizeOf (e :: rest) = 1 + sizeOf e + sizeOf rest := by simp
        have h2 : 0 < sizeOf e := by
          cases e <;> simp
        omega
      have hnames_rest : List.Nodup (rest.map FSEntry.entryName) :=
        (List.nodup_cons.mp (by simpa using hnames)).2
      have hname_notin : FSEntry.entryName e ∉ rest.map FSEntry.entryName :=
        (List.nodup_cons.mp (by simpa using hnames)).1
      have hwf_rest : ∀ x ∈ rest, EntryWf x := fun x hx => hwf x (List.mem_cons_of_mem e hx)
      have hrest_nodup := ih rest hsz path hnames_rest hwf_rest
      have hrest_shape : ∀ q ∈ doc_paths_list (build_children path rest),
          ∃ e' ∈ rest, ∃ t, q = path ++ FSEntry.entryName e' :: t :=
        fun q hq => build_children_doc_shape (sizeOf rest) rest (Nat.le_refl _) path q hq
      cases e with
      | dir cn ce =>
        rw [build_children, doc_paths_list]
        have hwf_dir := hwf (.dir cn ce) (List.mem_cons_self _ _)
        obtain ⟨hnames_ce, hsub_ce⟩ :
            List.Nodup (ce.map FSEntry.entryName) ∧ ∀ x ∈ ce, EntryWf x := by
          cases hwf_dir with
          | dir n entries h1 h2 => exact ⟨h1, h2⟩
        have hperm := List.Perm.map FSEntry.entryName (py_sorted_perm entry_le ce)
        have hnames_sorted : List.Nodup ((py_sorted entry_le ce).map FSEntry.entryName) :=
          hperm.nodup_iff.mpr hnames_ce
        have hwf_sorted : ∀ x ∈ py_sorted entry_le ce, EntryWf x :=
          fun x hx => hsub_ce x ((py_sorted_perm entry_le ce).mem_iff.mp hx)
        have hsz2 : sizeOf (py_sorted entry_le ce) ≤ k := by
          rw [sizeOf_py_sorted]
          have h3 : sizeOf (FSEntry.dir cn ce :: rest) =
              1 + (1 + sizeOf cn + sizeOf ce) + sizeOf rest := by simp
          omega
        have hA : List.Nodup (doc_paths (build_tree (path ++ [cn]) ce)) := by
          rw [build_tree, doc_paths]
          exact ih _ hsz2 (path ++ [cn]) hnames_sorted hwf_sorted
        refine List.Nodup.append hA hrest_nodup ?_
        intro q hqA hqB
        rw [build_tree, doc_paths] at hqA
        rcases build_children_doc_shape _ _ (Nat.le_refl (sizeOf (py_sorted entry_le ce)))
          (path ++ [cn]) q hqA with ⟨e1, -, t1, ht1⟩
        rcases hrest_shape q hqB with ⟨e2, he2, t2, ht2⟩
        rw [ht2] at ht1
        have ht1' : path ++ FSEntry.entryName e2 :: t2 = path ++ cn :: (FSEntry.entryName e1 :: t1) := by
          rw [ht1]
          simp
        have hcons := List.append_cancel_left ht1'
        have hcn : FSEntry.entryName e2 = cn := (List.cons.injEq _ _ _ _ ▸ hcons).1
        apply hname_notin
        rw [show FSEntry.entryName (FSEntry.dir cn ce) = cn from rfl, ← hcn]
        exact List.mem_map_of_mem FSEntry.entryName he2
      | file fn =>
        rw [build_children]
        by_cases h : (py_lower (pySuffix fn) == ".md") = true
        · rw [if_pos h, doc_paths_list, doc_paths]
          refine List.Nodup.append (List.nodup_singleton _) hrest_nodup ?_
          intro q hqA hqB
          have hq : q = path ++ [fn] := by simpa using hqA
          rcases hrest_shape q hqB with ⟨e2, he2, t2, ht2⟩
          rw [hq] at ht2
          have hcons := List.append_cancel_left ht2
          have hfn : fn = FSEntry.entryName e2 := (List.cons.injEq _ _ _ _ ▸ hcons).1
          apply hname_notin
          rw [show FSEntry.entryName (FSEntry.file fn) = fn from rfl, hfn]
          exact List.mem_map_of_mem FSEntry.entryName he2
        · rw [if_neg h]
          exact hrest_nodup

/-- In a duplicate-free list the matches of an element are itself, once. -/
theorem filter_eq_of_nodup {l : List (List String)} {a : List String}
    (hnd : l.Nodup) (ha : a ∈ l) : l.filter (fun x => x == a) = [a] := by
  induction l with
  | nil => simp at ha
  | cons x xs ih =>
    rcases List.nodup_cons.mp hnd with ⟨hx, hxs⟩
    rcases List.mem_cons.mp ha with rfl | ha2
    · rw [List.filter_cons_of_pos (by simp)]
      have hnil : xs.filter (fun y => y == a) = [] := by
        apply List.filter_eq_nil_iff.mpr
        intro y hy
        simp only [beq_iff_eq]
        intro h2
        exact hx (h2 ▸ hy)
      rw [hnil]
    · have hxa : (x == a) = false := by
        rw [beq_eq_false_iff_ne]
        intro h2
        exact hx (h2 ▸ ha2)
      rw [List.filter_cons_of_neg (by simp [hxa])]
      exact ih hxs ha2

/-- The active test holds exactly for the current document's own path. -/
theorem is_active_doc_iff {root p cur : List String} (hp : root <+: p) (hc : root <+: cur) :
    is_active_doc p cur root = true ↔ p = cur := by
  unfold is_active_doc relative_to
  rw [if_pos (List.isPrefixOf_iff_prefix.mpr hp), if_pos (List.isPrefixOf_iff_prefix.mpr hc)]
  show (p.drop root.length == cur.drop root.length) = true ↔ p = cur
  rw [beq_iff_eq]
  obtain ⟨tp, rfl⟩ := hp
  obtain ⟨tc, rfl⟩ := hc
  rw [List.drop_left, List.drop_left]
  simp

/-- C3.  The rendered class attribute is the active marker exactly when the
document's root-relative path equals the current document's; and for a tree
built from a well-formed directory with the current document one of its
leaves, exactly one document carries the marker: the current one. -/
theorem claim3_unique_active :
    (∀ (nm : String) (p : List String) (cs : List Node) (cur root : List String) (d : Nat)
      (rel : List String) (cls : String),
      relative_to p root = some rel → class_attr_of (some cur) rel root = some cls →
      render_nav (Node.mk nm p false cs) (some cur) root d =
        some ("<a href=\"" ++ as_posix (with_suffix rel ".html") ++ "\"" ++ cls ++
          style_attr d ++ " title=\"" ++ nm ++ "\">" ++ nm ++ "</a>") ∧
      (cls = " class=\"active\"" ↔ is_active_doc p cur root = true)) ∧
    (∀ (path : List String) (entries : List FSEntry) (cur : List String),
      DirWf entries → cur ∈ doc_paths (build_tree path entries) →
      active_docs (build_tree path entries) cur path = [cur]) := by
  constructor
  · intro nm p cs cur root d rel cls hrel hcls
    refine ⟨render_nav_doc_eq nm p cs (some cur) root d rel cls hrel hcls, ?_⟩
    simp only [class_attr_of] at hcls
    cases hrc : relative_to cur root with
    | none =>
      rw [hrc] at hcls
      cases hcls
    | some rc =>
      rw [hrc, Option.map_some'] at hcls
      have hcls2 : (if (rel == rc) = true then " class=\"active\"" else "") = cls :=
        Option.some.inj hcls
      unfold is_active_doc
      rw [hrel, hrc]
      show cls = " class=\"active\"" ↔ (rel == rc) = true
      rw [← hcls2]
      by_cases h : (rel == rc) = true
      · rw [if_pos h]
        simp [h]
      · rw [if_neg h]
        constructor
        · intro h2
          exact absurd h2 (by decide)
        · intro h2
          exact absurd h2 h
  · intro path entries cur hwf hcur
    have hshape : ∀ q ∈ doc_paths (build_tree path entries), path <+: q := by
      intro q hq
      rw [doc_paths_build_tree] at hq
      rcases build_children_doc_shape _ _ (Nat.le_refl (sizeOf (py_sorted entry_le entries)))
        path q hq with ⟨e, -, t, ht⟩
      exact ⟨FSEntry.entryName e :: t, ht.symm⟩
    have hnodup : List.Nodup (doc_paths (build_tree path entries)) := by
      rw [doc_paths_build_tree]
      have hperm := List.Perm.map FSEntry.entryName (py_sorted_perm entry_le entries)
      refine build_children_doc_nodup _ _ (Nat.le_refl (sizeOf (py_sorted entry_le entries)))
        path (hperm.nodup_iff.mpr hwf.1) ?_
      intro e he
      exact hwf.2 e ((py_sorted_perm entry_le entries).mem_iff.mp he)
    unfold active_docs
    have hfc : List.filter (fun p => is_active_doc p cur path)
        (doc_paths (build_tree path entries)) =
        List.filter (fun p => p == cur) (doc_paths (build_tree path entries)) := by
      apply List.filter_congr
      intro q hq
      have hiff := is_active_doc_iff (hshape q hq) (hshape cur hcur)
      by_cases h : q = cur
      · rw [h] at hiff ⊢
        rw [hiff.mpr rfl]
        simp
      · have h2 : is_active_doc q cur path = false := by
          cases hval : is_active_doc q cur path with
          | false => rfl
          | true => exact absurd (hiff.mp hval) h
        have h3 : (q == cur) = false := by
          rw [beq_eq_false_iff_ne]
          exact h
        rw [h2, h3]
    rw [hfc, filter_eq_of_nodup hnodup hcur]

/-- Witness for C3: rendering the demo tree marks exactly the current
document's link active. -/
theorem claim3_witness :
    active_docs (build_tree ["content"] [FSEntry.file "intro.md", FSEntry.file "setup.md"])
      ["content", "intro.md"] ["content"] = [["content", "intro.md"]] ∧
    ("" = " class=\"active\"" ↔
      is_active_doc ["content", "setup.md"] ["content", "intro.md"] ["content"] = true) := by
  constructor
  · refine claim3_unique_active.2 ["content"] [FSEntry.file "intro.md", FSEntry.file "setup.md"]
      ["content", "intro.md"] ⟨by decide, ?_⟩ ?_
    · intro e he
      rcases List.mem_cons.mp he with rfl | he2
      · exact EntryWf.file _
      · rcases List.mem_cons.mp he2 with rfl | he3
        · exact EntryWf.file _
        · simp at he3
    · rw [doc_paths_build_tree]
      simp +decide [build_children, py_sorted, insert_le, entry_le, FSEntry.isFileEntry,
        FSEntry.entryName, str_le, py_lower, pySuffix, pyStem, last_dot_idx, doc_paths_list,
        doc_paths]
  · exact ((claim3_unique_active.1 "setup" ["content", "setup.md"] [] ["content", "intro.md"]
      ["content"] 0 ["setup.md"] "" (by simp +decide [relative_to])
      (by simp +decide [class_attr_of, relative_to])).2)

/-- C7 (code bug).  `build_tree` classifies files by `suffix.lower() ==
".md"`, so `NOTES.MD` becomes a document node and the navigation links to
`NOTES.html`; but the generation loop iterates `rglob("*.md")`, which on a
POSIX filesystem is case-sensitive and misses `NOTES.MD`, and the asset
loop skips it too because its lowered suffix is `.md` — so no page and no
copy is produced for a file the tree builder treats as content, and even
the index redirect finds no document. -/
theorem claim7_uppercase_md_dropped :
    doc_paths (build_tree ["content"] [FSEntry.file "NOTES.MD"]) = [["content", "NOTES.MD"]] ∧
    render_nav (build_tree ["content"] [FSEntry.file "NOTES.MD"])
        (some ["content", "NOTES.MD"]) ["content"] 0 =
      some ("<details open><summary title=\"content\">content</summary>\n" ++
        "<a href=\"NOTES.html\" class=\"active\" style=\"margin-left:16px\" " ++
        "title=\"NOTES\">NOTES</a>\n</details>") ∧
    generated_pages [FSEntry.file "NOTES.MD"] = [] ∧
    copied_assets [FSEntry.file "NOTES.MD"] = [] ∧
    index_redirect [FSEntry.file "NOTES.MD"] = none := by
  refine ⟨?_, ?_, ?_, ?_, ?_⟩
  · rw [doc_paths_build_tree]
    simp +decide [build_children, py_sorted, insert_le, entry_le, FSEntry.isFileEntry,
      FSEntry.entryName, str_le, py_lower, pySuffix, pyStem, last_dot_idx, doc_paths_list,
      doc_paths]
  · rw [build_tree]
    simp +decide [build_children, py_sorted, insert_le, entry_le, FSEntry.isFileEntry,
      FSEntry.entryName, str_le, py_lower, pySuffix, pyStem, last_dot_idx, render_nav,
      render_children, open_attr, is_relative_to, style_attr, relative_to, class_attr_of,
      with_suffix, swap_suffix, as_posix, str_join]
  · simp +decide [generated_pages, rglob_md, rglob_md_dirs, glob_md_name]
  · simp +decide [copied_assets, r_files, r_files_dirs, pySuffix, py_lower, last_dot_idx]
  · simp +decide [index_redirect, rglob_md, rglob_md_dirs, glob_md_name]

end KnowHowPages
